import Mathlib

/-!
Verification development for the incremental conversation indexing and
search engine (SQLite/FTS5 store, streaming JSONL parser, indexer and
query layer).  The JavaScript source is shallowly embedded: each
database-touching method becomes a pure state transformation over an
explicit relational state, JavaScript strings become Lean strings
manipulated through character lists (so that every definition evaluates
inside the kernel), and JavaScript truthiness on strings and options is
modelled explicitly.  External components (the SQLite FTS5 match engine)
are parameters of the functions that call them.
-/

/-! ## JavaScript-style string primitives

All string manipulation is routed through character lists so that every
definition reduces by evaluation.  Truthiness of a JS string value
(absent, null or empty string are falsy) is modelled by optTruthy. -/

/-- Truthiness of a nullable JS string: null/undefined and the empty
string are falsy. -/
def optTruthy : Option String → Bool
  | none => false
  | some s => s != ""

/-- Splitting on a single separator character, exactly like the
JavaScript split: leading, trailing and repeated separators produce
empty fields. -/
def splitOnCharAux (sep : Char) : List Char → List Char → List (List Char)
  | cur, [] => [cur.reverse]
  | cur, c :: rest =>
    if c = sep then cur.reverse :: splitOnCharAux sep [] rest
    else splitOnCharAux sep (c :: cur) rest

/-- JS String.split with a one-character separator. -/
def jsSplit (s : String) (sep : Char) : List String :=
  (splitOnCharAux sep [] s.toList).map String.mk

/-- Index of the first occurrence of a string in a list
(JS Array.indexOf, with none for -1). -/
def firstIdx? (a : String) : List String → Option Nat
  | [] => none
  | b :: l => if b = a then some 0 else (firstIdx? a l).map (· + 1)

/-- Remove the first occurrence of a substring
(JS String.replace with a string pattern and empty replacement). -/
def removeFirstAux (pat : List Char) : List Char → List Char
  | [] => []
  | c :: rest =>
    if pat.isPrefixOf (c :: rest) then (c :: rest).drop pat.length
    else c :: removeFirstAux pat rest

/-- JS s.replace(pat, empty string): removes the first occurrence of pat. -/
def removeFirst (s pat : String) : String :=
  String.mk (removeFirstAux pat.toList s.toList)

/-- Node path.basename for POSIX paths: strip trailing slashes, then
take the final path component ('/a/b/' gives 'b', '/' gives ''). -/
def basename (p : String) : String :=
  let rs := p.toList.reverse.dropWhile (fun c => c == '/')
  String.mk ((rs.takeWhile (fun c => c != '/')).reverse)

/-- ASCII whitespace recognised by the regex \s and String.trim
(restricted to the ASCII range, which is all the engine feeds it). -/
def isSpaceChar (c : Char) : Bool :=
  c == ' ' || c == '\t' || c == '\n' || c == '\r' || c == '\x0b' || c == '\x0c'

/-- Word character of the regex metacharacter \w / word boundary \b. -/
def isWordChar (c : Char) : Bool :=
  c.isAlpha || c.isDigit || c == '_'

/-- JS String.trim (ASCII whitespace). -/
def strTrim (s : String) : String :=
  String.mk (((s.toList.dropWhile isSpaceChar).reverse.dropWhile isSpaceChar).reverse)

/-- JS String.slice(0, n). -/
def strTake (s : String) (n : Nat) : String :=
  String.mk (s.toList.take n)

/-- ASCII upper-casing (JS toUpperCase on the ASCII inputs used here). -/
def asciiUpper (s : String) : String :=
  String.mk (s.toList.map Char.toUpper)

/-- JS Array.join(sep). -/
def joinAux (sep : List Char) : List (List Char) → List Char
  | [] => []
  | [x] => x
  | x :: xs => x ++ sep ++ joinAux sep xs

/-- JS Array.join with a string separator. -/
def joinWith (sep : String) (parts : List String) : String :=
  String.mk (joinAux sep.toList (parts.map String.toList))

/-- First-seen-order deduplication: the key list of a JS Map or the
element list of a JS Set, in insertion order. -/
def dedupFS (l : List String) : List String :=
  l.foldl (fun acc c => if c ∈ acc then acc else acc ++ [c]) []

/-! ## FTS5 query sanitisation (DatabaseManager.escapeFtsQuery)

The source applies three regex replacements and a fallback:
replace the characters listed in specialChar with spaces, replace
word-boundary-delimited AND / OR / NOT / NEAR (case-insensitive) with
spaces, collapse whitespace runs, trim, and use the match-all sentinel
if the result is empty. -/

/-- The FTS5 special characters removed by the first replacement. -/
def specialChar (c : Char) : Bool :=
  c == '"' || c == ':' || c == '(' || c == ')' || c == '^' || c == '*' || c == '-' || c == '+'

/-- Case-insensitive match of a lowercase pattern against the front of
the input; on success returns the remainder. -/
def ciMatch : List Char → List Char → Option (List Char)
  | [], l => some l
  | _ :: _, [] => none
  | p :: ps, c :: cs => if c.toLower = p then ciMatch ps cs else none

/-- The word-boundary test after a candidate operator match: end of
input or a non-word character. -/
def boundaryOk : List Char → Bool
  | [] => true
  | c :: _ => !isWordChar c

/-- Try one alternative of the operator regex at the current position:
the pattern must match case-insensitively and be followed by a word
boundary; on success returns the matched length. -/
def tryOp (w : List Char) (l : List Char) : Option Nat :=
  match ciMatch w l with
  | some r => if boundaryOk r then some w.length else none
  | none => none

/-- The alternation AND | OR | NOT | NEAR, tried in source order with
backtracking, as the regex engine does at one position. -/
def tryOpWord (l : List Char) : Option Nat :=
  match tryOp ['a', 'n', 'd'] l with
  | some n => some n
  | none =>
    match tryOp ['o', 'r'] l with
    | some n => some n
    | none =>
      match tryOp ['n', 'o', 't'] l with
      | some n => some n
      | none => tryOp ['n', 'e', 'a', 'r'] l

/-- Global replacement of word-boundary-delimited operator words by a
space.  prev records whether the previous character was a word
character (the left side of the boundary test); skip counts characters
of a match still to be consumed. -/
def stripOpsAux : Bool → Nat → List Char → List Char
  | _, _, [] => []
  | prev, skip, c :: rest =>
    if skip ≠ 0 then stripOpsAux (isWordChar c) (skip - 1) rest
    else if prev then c :: stripOpsAux (isWordChar c) 0 rest
    else
      match tryOpWord (c :: rest) with
      | some n => ' ' :: stripOpsAux true (n - 1) rest
      | none => c :: stripOpsAux (isWordChar c) 0 rest

/-- The operator-stripping replacement of escapeFtsQuery. -/
def stripOps (l : List Char) : List Char := stripOpsAux false 0 l

/-- Replacement of every whitespace run by a single space. -/
def collapseWsAux : Bool → List Char → List Char
  | _, [] => []
  | inSpace, c :: rest =>
    if isSpaceChar c then
      if inSpace then collapseWsAux true rest
      else ' ' :: collapseWsAux true rest
    else c :: collapseWsAux false rest

/-- The whitespace-collapsing replacement of escapeFtsQuery. -/
def collapseWs (l : List Char) : List Char := collapseWsAux false l

/-- The sanitisation chain of escapeFtsQuery before the match-all
fallback: special characters to spaces, operator words to spaces,
whitespace collapsed, then trimmed. -/
def sanitizeFtsQuery (q : String) : String :=
  strTrim (String.mk (collapseWs (stripOps (q.toList.map (fun c => if specialChar c then ' ' else c)))))

/-- DatabaseManager.escapeFtsQuery: the sanitisation chain with the
match-all sentinel for an empty result. -/
def escapeFtsQuery (q : String) : String :=
  if sanitizeFtsQuery q = "" then "*" else sanitizeFtsQuery q

/-! ## Relational state of the store

One row type per table of DatabaseManager.createSchema, and the
database state as the four tables. -/

/-- A row of the conversations table. -/
structure SessionRow where
  id : String := ""
  file_path : String := ""
  filename : String := ""
  project : Option String := none
  message_count : Nat := 0
  file_size : Nat := 0
  last_modified : Int := 0
  created : Int := 0
  tokens_total : Nat := 0
  tokens_input : Nat := 0
  tokens_output : Nat := 0
  primary_model : Option String := none
  indexed_at : Int := 0
  is_subagent : Bool := false
  parent_id : Option String := none
  cwd : Option String := none
deriving DecidableEq

/-- A row of the conversation_fts virtual table. -/
structure FtsRow where
  conversation_id : String := ""
  content : String := ""
  project : String := ""
deriving DecidableEq

/-- A row of the tool_usage table. -/
structure ToolRow where
  conversation_id : String := ""
  tool_name : String := ""
  call_count : Nat := 0
deriving DecidableEq

/-- A row of the file_index tracking table. -/
structure FileRow where
  file_path : String := ""
  mtime : Int := 0
  size : Nat := 0
  indexed_at : Int := 0
deriving DecidableEq

/-- The whole database state. -/
structure DBState where
  sessions : List SessionRow := []
  fts : List FtsRow := []
  tools : List ToolRow := []
  fileIndex : List FileRow := []
deriving DecidableEq

/-! ## Parser result bundle (Indexer.parseJsonlStreaming output) -/

/-- Aggregate token usage of one parsed file. -/
structure PTokenUsage where
  total : Nat := 0
  input : Nat := 0
  output : Nat := 0
deriving DecidableEq

/-- Model tally of one parsed file. -/
structure PModelInfo where
  primaryModel : Option String := none
  models : List (String × Nat) := []
deriving DecidableEq

/-- Tool usage tally of one parsed file. -/
structure PToolUsage where
  total : Nat := 0
  tools : List (String × Nat) := []
deriving DecidableEq

/-- The ParseResult bundle returned by the streaming parser. -/
structure ParseResult where
  messageCount : Nat := 0
  tokenUsage : PTokenUsage := {}
  modelInfo : PModelInfo := {}
  toolUsage : PToolUsage := {}
  searchableContent : String := ""
  cwd : Option String := none
deriving DecidableEq

/-! ## The conversation object handed to upsertConversation

Fields that the JS code reads with optional chaining or truthiness
coalescing are options here. -/

/-- The conversation object built by Indexer.indexFile and consumed by
DatabaseManager.upsertConversation. -/
structure ConversationData where
  id : String := ""
  filePath : String := ""
  filename : String := ""
  project : Option String := none
  messageCount : Nat := 0
  fileSize : Nat := 0
  lastModified : Option Int := none
  created : Option Int := none
  tokenUsage : Option PTokenUsage := none
  modelInfo : Option PModelInfo := none
  toolUsage : Option PToolUsage := none
  isSubagent : Bool := false
  parentId : Option String := none
  cwd : Option String := none
deriving DecidableEq

/-- JS x or-else null on a string: the empty string collapses to null. -/
def orNull : Option String → Option String
  | some s => if s = "" then none else some s
  | none => none

/-- JS date?.getTime() or-else now: an absent date, or the (falsy)
epoch value 0, yields now. -/
def timeOr (t : Option Int) (now : Int) : Int :=
  match t with
  | some v => if v = 0 then now else v
  | none => now

/-! ## Store operations (DatabaseManager) -/

/-- DatabaseManager.needsIndexing: true iff no tracking row for the
path, or the tracked (mtime, size) tuple differs. -/
def needsIndexing (st : DBState) (filePath : String) (mtime : Int) (size : Nat) : Bool :=
  match st.fileIndex.find? (fun row => row.file_path == filePath) with
  | none => true
  | some row => decide (row.mtime ≠ mtime) || decide (row.size ≠ size)

/-- DatabaseManager.upsertConversation: one transaction that replaces
the conversation row (INSERT OR REPLACE evicts rows conflicting on the
id primary key or the unique file_path), deletes prior FTS rows for the
id and inserts a fresh one unless the searchable content is
empty/whitespace, rewrites the file-tracking row, and rebuilds the tool
rows. -/
def upsertConversation (c : ConversationData) (searchableContent : String) (now : Int) (st : DBState) : DBState :=
  let newRow : SessionRow :=
    { id := c.id
      file_path := c.filePath
      filename := c.filename
      project := orNull c.project
      message_count := c.messageCount
      file_size := c.fileSize
      last_modified := timeOr c.lastModified now
      created := timeOr c.created now
      tokens_total := (c.tokenUsage.map (fun u => u.total)).getD 0
      tokens_input := (c.tokenUsage.map (fun u => u.input)).getD 0
      tokens_output := (c.tokenUsage.map (fun u => u.output)).getD 0
      primary_model := orNull (c.modelInfo.bind (fun m => m.primaryModel))
      indexed_at := now
      is_subagent := c.isSubagent
      parent_id := orNull c.parentId
      cwd := orNull c.cwd }
  { sessions := st.sessions.filter (fun r => !(r.id == c.id) && !(r.file_path == c.filePath)) ++ [newRow]
    fts :=
      st.fts.filter (fun f => !(f.conversation_id == c.id)) ++
        (if strTrim searchableContent ≠ "" then
          [{ conversation_id := c.id, content := searchableContent, project := c.project.getD "" }]
        else [])
    tools :=
      st.tools.filter (fun t => !(t.conversation_id == c.id)) ++
        (match c.toolUsage with
         | some tu => tu.tools.map (fun p => { conversation_id := c.id, tool_name := p.1, call_count := p.2 })
         | none => [])
    fileIndex :=
      st.fileIndex.filter (fun r => !(r.file_path == c.filePath)) ++
        [{ file_path := c.filePath, mtime := timeOr c.lastModified now, size := c.fileSize, indexed_at := now }] }

/-- DatabaseManager.removeConversation: delete the conversation row and
its FTS and tool rows in one transaction. -/
def removeConversation (id : String) (st : DBState) : DBState :=
  { st with
    sessions := st.sessions.filter (fun s => !(s.id == id))
    fts := st.fts.filter (fun f => !(f.conversation_id == id))
    tools := st.tools.filter (fun t => !(t.conversation_id == id)) }

/-- DatabaseManager.removeFile: in one transaction, look up the session
by file path; if present, null the parent_id of sessions referencing
it, delete its FTS, tool and session rows inline; finally delete the
file-tracking row for the path. -/
def removeFile (filePath : String) (st : DBState) : DBState :=
  match st.sessions.find? (fun r => r.file_path == filePath) with
  | some conv =>
    { sessions :=
        (st.sessions.map (fun s =>
          if s.parent_id == some conv.id then { s with parent_id := none } else s)).filter
          (fun s => !(s.id == conv.id))
      fts := st.fts.filter (fun f => !(f.conversation_id == conv.id))
      tools := st.tools.filter (fun t => !(t.conversation_id == conv.id))
      fileIndex := st.fileIndex.filter (fun r => !(r.file_path == filePath)) }
  | none =>
    { st with fileIndex := st.fileIndex.filter (fun r => !(r.file_path == filePath)) }

/-! ## Query layer (DatabaseManager.getConversations and the search
paths)

The options object of the JS API may omit any field; destructuring
defaults are applied inside each operation, exactly as in the source.
The SQLite FTS5 MATCH engine is external to the repository, so the two
search operations take it as a parameter; a none result models the
exception path that falls back to the unranked listing. -/

/-- The options object accepted by the query operations. -/
structure QueryOptions where
  limit : Option Nat := none
  offset : Option Nat := none
  sortBy : Option String := none
  sortOrder : Option String := none
  project : Option String := none
  includeSubagents : Option Bool := none
deriving DecidableEq

/-- The conversation object produced by rowToConversation, with the
enrichment fields added by the search paths. -/
structure Conversation where
  id : String := ""
  filePath : String := ""
  filename : String := ""
  project : Option String := none
  messageCount : Nat := 0
  fileSize : Nat := 0
  lastModified : Int := 0
  created : Int := 0
  tokens : Nat := 0
  tokenUsage : PTokenUsage := {}
  primaryModel : Option String := none
  indexedAt : Int := 0
  isSubagent : Bool := false
  parentId : Option String := none
  relevance : Option Int := none
  snippet : Option String := none
  searchTerm : Option String := none
deriving DecidableEq

/-- DatabaseManager.rowToConversation. -/
def rowToConversation (row : SessionRow) : Conversation :=
  { id := row.id
    filePath := row.file_path
    filename := row.filename
    project := row.project
    messageCount := row.message_count
    fileSize := row.file_size
    lastModified := row.last_modified
    created := row.created
    tokens := row.tokens_total
    tokenUsage := { total := row.tokens_total, input := row.tokens_input, output := row.tokens_output }
    primaryModel := row.primary_model
    indexedAt := row.indexed_at
    isSubagent := row.is_subagent
    parentId := orNull row.parent_id }

/-- The whitelist of sortable columns. -/
def allowedSorts : List String :=
  ["last_modified", "created", "tokens_total", "message_count", "file_size"]

/-- The sort key selected by the (already whitelisted) column name. -/
def sortKey (safeSort : String) (r : SessionRow) : Int :=
  if safeSort = "created" then r.created
  else if safeSort = "tokens_total" then (r.tokens_total : Int)
  else if safeSort = "message_count" then (r.message_count : Int)
  else if safeSort = "file_size" then (r.file_size : Int)
  else r.last_modified

/-- Ascending order on a sort key. -/
def keyAsc (k : SessionRow → Int) (a b : SessionRow) : Prop := k a ≤ k b

/-- Descending order on a sort key. -/
def keyDesc (k : SessionRow → Int) (a b : SessionRow) : Prop := k b ≤ k a

instance (k : SessionRow → Int) : DecidableRel (keyAsc k) :=
  fun a b => inferInstanceAs (Decidable (k a ≤ k b))

instance (k : SessionRow → Int) : DecidableRel (keyDesc k) :=
  fun a b => inferInstanceAs (Decidable (k b ≤ k a))

/-- DatabaseManager.getConversations: subagent and project filters,
whitelisted sort column, normalised order, then OFFSET/LIMIT paging.
Rows tying on the sort key are kept in table order (a deterministic
refinement of the engine's unspecified tie order). -/
def getConversations (options : QueryOptions) (st : DBState) : List Conversation :=
  let limit := options.limit.getD 100
  let offset := options.offset.getD 0
  let sortBy := options.sortBy.getD "last_modified"
  let sortOrder := options.sortOrder.getD "DESC"
  let includeSubagents := options.includeSubagents.getD false
  let safeSort := if allowedSorts.contains sortBy then sortBy else "last_modified"
  let safeOrder := if asciiUpper sortOrder = "ASC" then "ASC" else "DESC"
  let rows := if includeSubagents then st.sessions else st.sessions.filter (fun r => !r.is_subagent)
  let rows :=
    match options.project with
    | some pr => if pr != "" then rows.filter (fun r => r.project == some pr) else rows
    | none => rows
  let sorted :=
    if safeOrder = "ASC" then List.insertionSort (keyAsc (sortKey safeSort)) rows
    else List.insertionSort (keyDesc (sortKey safeSort)) rows
  ((sorted.drop offset).take limit).map rowToConversation

/-- The external FTS5 MATCH engine used by searchConversations: given
the escaped query, the subagent-inclusion flag, limit and offset, it
returns matching rows with their BM25 relevance, or none when the
engine raises (the catch branch of the source). -/
def FtsEngine : Type :=
  String → Bool → Nat → Nat → DBState → Option (List (SessionRow × Int))

/-- The external FTS5 engine used by the snippet search: as FtsEngine
but each row also carries its snippet text. -/
def SnippetEngine : Type :=
  String → Bool → Nat → Nat → DBState → Option (List (SessionRow × Int × String))

/-- DatabaseManager.searchConversations: an empty or whitespace query
delegates to getConversations; otherwise the escaped query is run
through the FTS engine, and an engine failure falls back to
getConversations. -/
def searchConversations (eng : FtsEngine) (query : String) (options : QueryOptions) (st : DBState) : List Conversation :=
  if strTrim query = "" then getConversations options st
  else
    match eng (escapeFtsQuery query) (options.includeSubagents.getD false)
        (options.limit.getD 50) (options.offset.getD 0) st with
    | some rows => rows.map (fun rr => { rowToConversation rr.1 with relevance := some rr.2 })
    | none => getConversations options st

/-- DatabaseManager.searchConversationsWithSnippets: an empty or
whitespace query returns the empty list; otherwise the snippet engine
runs, results are enriched with relevance, snippet and the original
query, and an engine failure falls back to searchConversations. -/
def searchConversationsWithSnippets (snipEng : SnippetEngine) (eng : FtsEngine)
    (query : String) (options : QueryOptions) (st : DBState) : List Conversation :=
  if strTrim query = "" then []
  else
    match snipEng (escapeFtsQuery query) (options.includeSubagents.getD false)
        (options.limit.getD 50) (options.offset.getD 0) st with
    | some rows =>
      rows.map (fun rr =>
        { rowToConversation rr.1 with
          relevance := some rr.2.1
          snippet := some rr.2.2
          searchTerm := some query })
    | none => searchConversations eng query options st

/-! ## Project-name resolution
(DatabaseManager.resolveEncodedProjectNames)

Sessions are grouped by the path segment immediately under the
projects segment of their file path; within a group the non-null cwds
are collected in first-seen order, sorted stably by length, and the
basename of the shortest becomes the canonical project name, mirrored
into the FTS rows.  The snapshot of conversations is taken once at the
start, as in the source. -/

/-- The encoded project folder of a file path: the path segment
immediately after the first segment named projects, if any. -/
def encodedFolderOf (fp : String) : Option String :=
  let parts := jsSplit fp '/'
  match firstIdx? "projects" parts with
  | none => none
  | some i => parts.get? (i + 1)

/-- The first-seen-ordered list of encoded folders over a session
snapshot (the key order of the folderData map). -/
def folderKeys (snapshot : List SessionRow) : List String :=
  dedupFS (snapshot.filterMap (fun s => encodedFolderOf s.file_path))

/-- The sessions of one encoded folder, in snapshot order. -/
def folderGroup (snapshot : List SessionRow) (f : String) : List SessionRow :=
  snapshot.filter (fun s => encodedFolderOf s.file_path == some f)

/-- The distinct truthy cwds of one folder, in insertion order (the
cwds set of the source). -/
def folderCwds (snapshot : List SessionRow) (f : String) : List String :=
  dedupFS ((folderGroup snapshot f).filterMap (fun s => if optTruthy s.cwd then s.cwd else none))

/-- Length order on strings, for the stable sort of cwd candidates. -/
def lenLE (a b : String) : Prop := a.toList.length ≤ b.toList.length

instance : DecidableRel lenLE :=
  fun a b => inferInstanceAs (Decidable (a.toList.length ≤ b.toList.length))

/-- The root cwd of one folder: the first element of the cwd list
sorted stably by ascending length (the source sorts and takes index 0;
its prefix-verification loop has no effect and is omitted). -/
def rootCwdOf (snapshot : List SessionRow) (f : String) : Option String :=
  (List.insertionSort lenLE (folderCwds snapshot f)).head?

/-- The UPDATE of one conversation row's project by id. -/
def updSession (c i : String) (s : SessionRow) : SessionRow :=
  if s.id = i then { s with project := some c } else s

/-- The UPDATE of one FTS row's project by conversation id. -/
def updFts (c i : String) (fr : FtsRow) : FtsRow :=
  if fr.conversation_id = i then { fr with project := c } else fr

/-- Both UPDATE statements run for one conversation id. -/
def applyUpd (c i : String) (st : DBState) : DBState :=
  { st with
    sessions := st.sessions.map (updSession c i)
    fts := st.fts.map (updFts c i) }

/-- The per-folder update loop: every snapshot conversation of the
group whose snapshot project differs from the canonical name is
updated in the live state. -/
def resolveStep (group : List SessionRow) (c : String) (st : DBState) : DBState :=
  group.foldl (fun acc conv => if conv.project ≠ some c then applyUpd c conv.id acc else acc) st

/-- Processing of one folder: skip when the folder has no cwds or the
canonical basename is empty, else run the update loop with the
basename of the root cwd. -/
def procFolder (snapshot : List SessionRow) (st : DBState) (f : String) : DBState :=
  match rootCwdOf snapshot f with
  | none => st
  | some root =>
    if basename root = "" then st
    else resolveStep (folderGroup snapshot f) (basename root) st

/-- The resolved-count contribution of one folder (counted against the
snapshot, as in the source). -/
def folderResolved (snapshot : List SessionRow) (f : String) : Nat :=
  match rootCwdOf snapshot f with
  | none => 0
  | some root =>
    if basename root = "" then 0
    else (folderGroup snapshot f).countP (fun conv => decide (conv.project ≠ some (basename root)))

/-- DatabaseManager.resolveEncodedProjectNames: one transaction over
all folders; returns the new state with the resolved and folders
counts. -/
def resolveEncodedProjectNames (st : DBState) : DBState × Nat × Nat :=
  let snapshot := st.sessions
  let keys := folderKeys snapshot
  (keys.foldl (procFolder snapshot) st,
   (keys.map (folderResolved snapshot)).sum,
   keys.countP (fun f => decide (folderResolved snapshot f ≠ 0)))

/-! ## Streaming parser (Indexer.parseJsonlStreaming)

A log line is either a parse failure (none) or a JSON item; objects are
modelled by the fields the parser reads.  The message content is a
string, a single block or an array of blocks.  Blank lines contribute
nothing and are elided from the line list. -/

/-- A content block as read by the parser. -/
structure JBlock where
  type : Option String := none
  text : Option String := none
  name : Option String := none
deriving DecidableEq

/-- The message content: string, array of blocks, or one block object. -/
inductive JContent where
  | str (s : String)
  | arr (bs : List JBlock)
  | obj (b : JBlock)
deriving DecidableEq

/-- The usage object of an assistant message; the token fields may be
absent (treated as zero by the parser). -/
structure JUsage where
  input_tokens : Option Nat := none
  output_tokens : Option Nat := none
deriving DecidableEq

/-- The message object fields read by the parser. -/
structure JMessage where
  usage : Option JUsage := none
  model : Option String := none
  content : Option JContent := none
  cwd : Option String := none
deriving DecidableEq

/-- One successfully parsed log line. -/
structure JItem where
  type : Option String := none
  message : Option JMessage := none
  cwd : Option String := none
deriving DecidableEq

/-- JS truthiness of a content value: absent and the empty string are
falsy, arrays and objects are truthy. -/
def contentTruthy : Option JContent → Bool
  | none => false
  | some (JContent.str s) => s != ""
  | some (JContent.arr _) => true
  | some (JContent.obj _) => true

/-- Indexer.extractTextContent. -/
def extractTextContent : Option JContent → String
  | none => ""
  | some (JContent.str s) => s
  | some (JContent.arr bs) =>
    joinWith "\n" ((bs.filter (fun b => b.type == some "text")).map (fun b => b.text.getD ""))
  | some (JContent.obj b) => if b.type == some "text" then b.text.getD "" else ""

/-- Indexer.extractToolNames.  A non-array content is wrapped into a
one-element array; a string element has no type or name field and so
never passes the tool_use filter, which the str case reflects
directly. -/
def extractToolNames : Option JContent → List String
  | none => []
  | some (JContent.str _) => []
  | some (JContent.arr bs) =>
    (bs.filter (fun b => b.type == some "tool_use" && optTruthy b.name)).map (fun b => b.name.getD "")
  | some (JContent.obj b) =>
    ([b].filter (fun x => x.type == some "tool_use" && optTruthy x.name)).map (fun x => x.name.getD "")

/-- Increment of a counter keyed by a string in a JS object, preserving
key insertion order. -/
def bumpCount (l : List (String × Nat)) (k : String) : List (String × Nat) :=
  if l.any (fun p => p.1 == k) then l.map (fun p => if p.1 == k then (p.1, p.2 + 1) else p)
  else l ++ [(k, 1)]

/-- The accumulator state of the line handler of parseJsonlStreaming. -/
structure ParseState where
  messageCount : Nat := 0
  input : Nat := 0
  output : Nat := 0
  contentParts : List String := []
  modelCounts : List (String × Nat) := []
  toolTotal : Nat := 0
  tools : List (String × Nat) := []
  cwd : Option String := none
deriving DecidableEq

/-- The cwd extraction of the line handler: keep scanning until the
first truthy cwd, found at the top level or inside the message. -/
def stepCwd (item : JItem) (st : ParseState) : ParseState :=
  if st.cwd = none then
    if optTruthy item.cwd then { st with cwd := item.cwd }
    else
      match item.message with
      | some m => if optTruthy m.cwd then { st with cwd := m.cwd } else st
      | none => st
  else st

/-- The tool-usage tally of one assistant message. -/
def stepTools (msg : JMessage) (st : ParseState) : ParseState :=
  (extractToolNames msg.content).foldl
    (fun acc t => { acc with tools := bumpCount acc.tools t, toolTotal := acc.toolTotal + 1 }) st

/-- The message-line part of the line handler: count the message,
collect capped searchable text, add assistant token usage, tally the
model, and tally assistant tool use. -/
def stepMessage (item : JItem) (msg : JMessage) (st : ParseState) : ParseState :=
  let st1 := { st with messageCount := st.messageCount + 1 }
  let content := extractTextContent msg.content
  let st2 :=
    if content != "" then { st1 with contentParts := st1.contentParts ++ [strTake content 2000] }
    else st1
  let st3 :=
    if item.type == some "assistant" then
      match msg.usage with
      | some u =>
        { st2 with
          input := st2.input + u.input_tokens.getD 0
          output := st2.output + u.output_tokens.getD 0 }
      | none => st2
    else st2
  let st4 :=
    match msg.model with
    | some m => if m != "" then { st3 with modelCounts := bumpCount st3.modelCounts m } else st3
    | none => st3
  if item.type == some "assistant" && contentTruthy msg.content then stepTools msg st4 else st4

/-- The whole per-line handler: parse failures contribute nothing; a
parsed item feeds the cwd scan, and only user/assistant message lines
reach the aggregation. -/
def parseLine (st : ParseState) (line : Option JItem) : ParseState :=
  match line with
  | none => st
  | some item =>
    let st1 := stepCwd item st
    match item.message with
    | some msg =>
      if item.type == some "assistant" || item.type == some "user" then stepMessage item msg st1
      else st1
    | none => st1

/-- The primary-model selection at stream close: highest count wins,
first-seen order breaking ties (strict comparison over the insertion
order of the tally). -/
def primaryOfAux : Option String → Nat → List (String × Nat) → Option String
  | acc, _, [] => acc
  | acc, maxC, (m, c) :: rest =>
    if c > maxC then primaryOfAux (some m) c rest else primaryOfAux acc maxC rest

/-- The primary model of a model tally. -/
def primaryOf (l : List (String × Nat)) : Option String := primaryOfAux none 0 l

/-- Indexer.parseJsonlStreaming over the line list of one file: fold
the line handler, then assemble the ParseResult as the close handler
does (total = input + output, capped searchable text). -/
def parseJsonlStreaming (lines : List (Option JItem)) : ParseResult :=
  let st := lines.foldl parseLine {}
  { messageCount := st.messageCount
    tokenUsage := { total := st.input + st.output, input := st.input, output := st.output }
    modelInfo := { primaryModel := primaryOf st.modelCounts, models := st.modelCounts }
    toolUsage := { total := st.toolTotal, tools := st.tools }
    searchableContent := strTake (joinWith "\n" st.contentParts) 100000
    cwd := st.cwd }

/-! ## Indexer (runFullIndex and indexFile)

The filesystem is abstracted into a list of discovered file entries,
each carrying its stat result and the parse result of its content. -/

/-- The stat result of one file. -/
structure FileStat where
  mtime : Int := 0
  size : Nat := 0
  birthtime : Int := 0
deriving DecidableEq

/-- One discovered .jsonl file: its path, stat, and the parse of its
content. -/
structure FileEntry where
  path : String := ""
  stat : FileStat := {}
  parse : ParseResult := {}
deriving DecidableEq

/-- Indexer.detectSubagent: a path is a subagent iff some non-leading
segment equals subagents; the parent id is the preceding segment. -/
def detectSubagent (filePath : String) : Bool × Option String :=
  let pathParts := jsSplit filePath '/'
  match firstIdx? "subagents" pathParts with
  | some (i + 1) => (true, some (pathParts.getD i ""))
  | _ => (false, none)

/-- Indexer.extractProjectFromPath: the fallback when no cwd was found;
the first path component under the projects root, with a single leading
dash stripped, else Unknown. -/
def extractProjectFromPath (projectsDir filePath : String) : String :=
  let relativePath := removeFirst filePath projectsDir
  let parts := (jsSplit relativePath '/').filter (fun p => p != "")
  match parts with
  | [] => "Unknown"
  | encoded :: _ =>
    if encoded.toList.head? = some '-' then String.mk (encoded.toList.drop 1) else encoded

/-- Indexer.indexFile: derive subagent flags, the session id and the
project name, build the conversation object and hand it to
upsertConversation together with the searchable content. -/
def indexFileUpdate (projectsDir filePath : String) (fileStats : FileStat)
    (parseResult : ParseResult) (now : Int) (st : DBState) : DBState :=
  let filename := basename filePath
  let sub := detectSubagent filePath
  let baseId := removeFirst filename ".jsonl"
  let id := if sub.1 && optTruthy sub.2 then (sub.2.getD "") ++ "_" ++ baseId else baseId
  let project :=
    if optTruthy parseResult.cwd then basename (parseResult.cwd.getD "")
    else extractProjectFromPath projectsDir filePath
  let conversation : ConversationData :=
    { id := id
      filePath := filePath
      filename := filename
      project := some project
      cwd := parseResult.cwd
      messageCount := parseResult.messageCount
      fileSize := fileStats.size
      lastModified := some fileStats.mtime
      created := some fileStats.birthtime
      tokenUsage := some parseResult.tokenUsage
      modelInfo := some parseResult.modelInfo
      toolUsage := some parseResult.toolUsage
      isSubagent := sub.1
      parentId := sub.2 }
  upsertConversation conversation parseResult.searchableContent now st

/-- The statistics record returned by Indexer.runFullIndex. -/
structure IndexStats where
  filesScanned : Nat := 0
  filesIndexed : Nat := 0
  filesSkipped : Nat := 0
  filesRemoved : Nat := 0
  errors : Nat := 0
  projectNamesResolved : Nat := 0
deriving DecidableEq

/-- The per-file step of the indexing loop: skip when needsIndexing is
false, else index the file. -/
def indexLoopStep (projectsDir : String) (now : Int) (acc : IndexStats × DBState) (file : FileEntry) :
    IndexStats × DBState :=
  if needsIndexing acc.2 file.path file.stat.mtime file.stat.size then
    ({ acc.1 with filesIndexed := acc.1.filesIndexed + 1 },
     indexFileUpdate projectsDir file.path file.stat file.parse now acc.2)
  else ({ acc.1 with filesSkipped := acc.1.filesSkipped + 1 }, acc.2)

/-- Indexer.runFullIndex: walk the discovered files, skipping unchanged
ones; then remove every tracked path that was not discovered; then
resolve encoded project names.  Stat or parse errors are not modelled
(every entry carries its stat and parse), so errors stays zero. -/
def runFullIndex (projectsDir : String) (files : List FileEntry) (now : Int) (st : DBState) :
    IndexStats × DBState :=
  let afterFiles :=
    files.foldl (indexLoopStep projectsDir now) ({ filesScanned := files.length }, st)
  let deletedPaths :=
    (dedupFS (st.fileIndex.map (fun r => r.file_path))).filter
      (fun p => !(files.map (fun f => f.path)).contains p)
  let afterRemove := deletedPaths.foldl (fun acc p => removeFile p acc) afterFiles.2
  let resolved := resolveEncodedProjectNames afterRemove
  ({ afterFiles.1 with
     filesRemoved := deletedPaths.length
     projectNamesResolved := resolved.2.1 },
   resolved.1)

/-! ## Hierarchy grouping (chats-mobile groupSubagentsUnderParents)

The records handled by the grouping carry the fields the function
reads; the database lookup used to fetch stub parents is a parameter
(none when the backend is unavailable), as is the combined flag for
useDatabaseBackend and isInitialized. -/

/-- A conversation as seen by the mobile grouping layer. -/
structure MConv where
  id : String := ""
  isSubagent : Bool := false
  parentId : Option String := none
  lastModified : Int := 0
  isStub : Bool := false
  subagentCount : Nat := 0
deriving DecidableEq

/-- Descending last-modified order used by both sorts of the grouping
(stable: ties keep input order). -/
def lmGE (a b : MConv) : Prop := b.lastModified ≤ a.lastModified

instance : DecidableRel lmGE :=
  fun a b => inferInstanceAs (Decidable (b.lastModified ≤ a.lastModified))

/-- The parent partition of the input result set. -/
def gParents (convs : List MConv) : List MConv := convs.filter (fun c => !c.isSubagent)

/-- The subagent partition of the input result set. -/
def gSubagents (convs : List MConv) : List MConv := convs.filter (fun c => c.isSubagent)

/-- The per-parent subagent count map: keyed only by truthy parent ids,
with zero for an absent key. -/
def gSubCount (subs : List MConv) (pid : String) : Nat :=
  if pid = "" then 0 else subs.countP (fun s => s.parentId == some pid)

/-- The stub parents fetched from the store for subagents whose parent
is not in the result set. -/
def gParentStubs (getConv : String → Option MConv) (useDb : Bool) (convs : List MConv) : List MConv :=
  if useDb then
    (dedupFS
        (((gSubagents convs).filter (fun s =>
            optTruthy s.parentId && !((gParents convs).map (fun p => p.id)).contains (s.parentId.getD ""))).map
          (fun s => s.parentId.getD ""))).filterMap
      (fun pid =>
        (getConv pid).map (fun p =>
          { p with isStub := true, subagentCount := gSubCount (gSubagents convs) pid }))
  else []

/-- All parents: the real ones with their subagent counts refreshed,
then the stubs. -/
def gAllParents (getConv : String → Option MConv) (useDb : Bool) (convs : List MConv) : List MConv :=
  (gParents convs).map (fun p =>
    { p with
      subagentCount :=
        if gSubCount (gSubagents convs) p.id ≠ 0 then gSubCount (gSubagents convs) p.id
        else p.subagentCount }) ++
    gParentStubs getConv useDb convs

/-- chats-mobile groupSubagentsUnderParents: partition, fetch stubs,
sort all parents by last-modified descending, emit each parent followed
by its subagents sorted the same way, and append orphans. -/
def groupSubagentsUnderParents (getConv : String → Option MConv) (useDb : Bool)
    (conversations : List MConv) : List MConv :=
  let subagents := gSubagents conversations
  if subagents.isEmpty then conversations
  else
    let sortedParents := List.insertionSort lmGE (gAllParents getConv useDb conversations)
    let grouped :=
      sortedParents.flatMap (fun parent =>
        parent :: List.insertionSort lmGE (subagents.filter (fun s => s.parentId == some parent.id)))
    let allParentIds := sortedParents.map (fun p => p.id)
    let orphans :=
      subagents.filter (fun s => !optTruthy s.parentId || !allParentIds.contains (s.parentId.getD ""))
    grouped ++ orphans

/-! ## Specification-side helpers used by theorem statements -/

/-- The per-line input-token contribution dictated by the claim: only
an assistant message line with a usage object contributes, missing
numbers count as zero. -/
def assistantInputTokens : Option JItem → Nat
  | none => 0
  | some item =>
    match item.message with
    | none => 0
    | some msg =>
      if item.type == some "assistant" then
        match msg.usage with
        | some u => u.input_tokens.getD 0
        | none => 0
      else 0

/-- The per-line output-token contribution; see assistantInputTokens. -/
def assistantOutputTokens : Option JItem → Nat
  | none => 0
  | some item =>
    match item.message with
    | none => 0
    | some msg =>
      if item.type == some "assistant" then
        match msg.usage with
        | some u => u.output_tokens.getD 0
        | none => 0
      else 0

/-- Invariant shape used by the resolution proofs: every session row
with the given id satisfies a predicate on its project. -/
def SessInv (sid : String) (P : Option String → Prop) (st : DBState) : Prop :=
  ∀ t ∈ st.sessions, t.id = sid → P t.project

/-- Invariant shape for FTS rows of one conversation id. -/
def FtsInv (sid : String) (Q : String → Prop) (st : DBState) : Prop :=
  ∀ fr ∈ st.fts, fr.conversation_id = sid → Q fr.project

/-! ## Concrete inputs for the witness theorems -/

/-- An FTS engine that always raises (exercises the fallbacks). -/
def engNone : FtsEngine := fun _ _ _ _ _ => none

/-- A snippet engine that always raises. -/
def snipNone : SnippetEngine := fun _ _ _ _ _ => none

/-- Witness session at path /p. -/
def wConv : SessionRow := { id := "x", file_path := "/p", filename := "p" }

/-- Witness subagent session whose parent is wConv. -/
def wChild : SessionRow := { id := "y", file_path := "/q", filename := "q", is_subagent := true, parent_id := some "x" }

/-- Witness store state holding wConv with FTS, tool and tracking rows
plus the child session. -/
def wState : DBState :=
  { sessions := [wConv, wChild]
    fts := [{ conversation_id := "x", content := "hello" }]
    tools := [{ conversation_id := "x", tool_name := "Read", call_count := 2 }]
    fileIndex := [{ file_path := "/p", mtime := 1, size := 1 }, { file_path := "/q", mtime := 2, size := 2 }] }

/-- Witness file entry for the double-indexing round trip. -/
def wEntry : FileEntry := { path := "/h/projects/-x/c1.jsonl", stat := { mtime := 5, size := 3 } }

/-- Witness session with the project-root cwd of its folder. -/
def wResA : SessionRow :=
  { id := "a", file_path := "/h/projects/-u-proj/a.jsonl", project := some "my-project", cwd := some "/u/proj/my-project" }

/-- Witness session of the same folder indexed from a subdirectory
cwd, so its project initially disagrees. -/
def wResB : SessionRow :=
  { id := "b", file_path := "/h/projects/-u-proj/b.jsonl", project := some "src", cwd := some "/u/proj/my-project/src" }

/-- Witness state for project-name resolution, FTS-consistent. -/
def wResState : DBState :=
  { sessions := [wResA, wResB]
    fts := [{ conversation_id := "a", content := "t", project := "my-project" },
            { conversation_id := "b", content := "t", project := "src" }] }

/-- State whose only session records the filesystem root as cwd: the
basename of the shortest cwd of its group is empty. -/
def wRootCwdState : DBState :=
  { sessions := [{ id := "c1", file_path := "/h/projects/-x/c1.jsonl", project := some "p", cwd := some "/" }] }

/-- Witness parent for the grouping claims. -/
def wParent : MConv := { id := "p", lastModified := 10 }

/-- Witness subagent of wParent, older. -/
def wSubA : MConv := { id := "a", isSubagent := true, parentId := some "p", lastModified := 1 }

/-- Witness subagent of wParent, newer but later in the input. -/
def wSubB : MConv := { id := "b", isSubagent := true, parentId := some "p", lastModified := 2 }

/-! ## Theorems -/

/-! ### Shared helper lemmas -/

/-- Filtering on the complement of a key predicate leaves no row
satisfying it. -/
theorem countP_filter_not_eq_zero {α : Type} (p : α → Bool) (l : List α) :
    (l.filter (fun x => !p x)).countP p = 0 := by
  rw [List.countP_eq_zero]
  intro a ha
  rcases List.mem_filter.mp ha with ⟨-, hb⟩
  simp only [Bool.not_eq_true'] at hb
  simp [hb]

/-- Claim C3: after every completed upsertConversation, the number of
FTS rows of the upserted id is zero when the searchable content is
empty or whitespace (any prior row is removed, none inserted) and one
otherwise; in particular the session has at most one FTS row. -/
theorem upsert_fts_row_count (c : ConversationData) (txt : String) (now : Int) (st : DBState) :
    ((upsertConversation c txt now st).fts.countP (fun f => f.conversation_id == c.id))
      = (if strTrim txt = "" then 0 else 1) := by
  unfold upsertConversation
  rw [List.countP_append]
  have h1 := countP_filter_not_eq_zero (fun f : FtsRow => f.conversation_id == c.id) st.fts
  rw [h1]
  by_cases h : strTrim txt = ""
  · simp [h]
  · simp [h, List.countP_cons]

/-- Claim C1: removeFile on a path whose session exists clears every
reference to the removed id: no surviving session carries the id or
points to it through parent_id, no FTS/tool row references it, the
tracking row of the path is gone, and every other session survives
(with its parent_id nulled when it pointed at the removed session). -/
theorem removeFile_clears_all_references (st : DBState) (p : String) (conv : SessionRow)
    (h : st.sessions.find? (fun r => r.file_path == p) = some conv) :
    (∀ s ∈ (removeFile p st).sessions, s.id ≠ conv.id ∧ s.parent_id ≠ some conv.id)
    ∧ (∀ f ∈ (removeFile p st).fts, f.conversation_id ≠ conv.id)
    ∧ (∀ t ∈ (removeFile p st).tools, t.conversation_id ≠ conv.id)
    ∧ (∀ r ∈ (removeFile p st).fileIndex, r.file_path ≠ p)
    ∧ (∀ s ∈ st.sessions, s.id ≠ conv.id →
        (if s.parent_id == some conv.id then { s with parent_id := none } else s) ∈ (removeFile p st).sessions) := by
  have hrw : removeFile p st =
      { sessions :=
          (st.sessions.map (fun s =>
            if s.parent_id == some conv.id then { s with parent_id := none } else s)).filter
            (fun s => !(s.id == conv.id))
        fts := st.fts.filter (fun f => !(f.conversation_id == conv.id))
        tools := st.tools.filter (fun t => !(t.conversation_id == conv.id))
        fileIndex := st.fileIndex.filter (fun r => !(r.file_path == p)) } := by
    unfold removeFile
    rw [h]
  rw [hrw]
  refine ⟨?_, ?_, ?_, ?_, ?_⟩
  · intro s hs
    rcases List.mem_filter.mp hs with ⟨hmem, hid⟩
    simp only [Bool.not_eq_true', beq_eq_false_iff_ne, ne_eq] at hid
    refine ⟨hid, ?_⟩
    rcases List.mem_map.mp hmem with ⟨u, -, hu⟩
    by_cases hc : u.parent_id == some conv.id
    · rw [if_pos hc] at hu
      rw [← hu]
      simp
    · rw [if_neg hc] at hu
      rw [← hu]
      simpa using hc
  · intro f hf
    rcases List.mem_filter.mp hf with ⟨-, hb⟩
    simpa using hb
  · intro t ht
    rcases List.mem_filter.mp ht with ⟨-, hb⟩
    simpa using hb
  · intro r hr
    rcases List.mem_filter.mp hr with ⟨-, hb⟩
    simpa using hb
  · intro s hs hne
    apply List.mem_filter.mpr
    constructor
    · exact List.mem_map.mpr ⟨s, hs, rfl⟩
    · have hid : (if s.parent_id == some conv.id then { s with parent_id := none } else s).id = s.id := by
        by_cases hc : s.parent_id == some conv.id
        · rw [if_pos hc]
        · rw [if_neg hc]
      rw [hid]
      simpa using hne

/-- Witness for C1: removeFile on the two-session witness store. -/
theorem removeFile_clears_all_references_witness :
    (wState.sessions.find? (fun r => r.file_path == "/p") = some wConv)
    ∧ ((∀ s ∈ (removeFile "/p" wState).sessions, s.id ≠ wConv.id ∧ s.parent_id ≠ some wConv.id)
      ∧ (∀ f ∈ (removeFile "/p" wState).fts, f.conversation_id ≠ wConv.id)
      ∧ (∀ t ∈ (removeFile "/p" wState).tools, t.conversation_id ≠ wConv.id)
      ∧ (∀ r ∈ (removeFile "/p" wState).fileIndex, r.file_path ≠ "/p")
      ∧ (∀ s ∈ wState.sessions, s.id ≠ wConv.id →
          (if s.parent_id == some wConv.id then { s with parent_id := none } else s) ∈ (removeFile "/p" wState).sessions)) :=
  ⟨by decide, removeFile_clears_all_references wState "/p" wConv (by decide)⟩

/-- Claim C10: removeFile on a path with no session row deletes only
the file-tracking row for the path and leaves the sessions, FTS and
tool tables unchanged. -/
theorem removeFile_missing_session_frame (st : DBState) (p : String)
    (h : st.sessions.find? (fun r => r.file_path == p) = none) :
    (removeFile p st).sessions = st.sessions
    ∧ (removeFile p st).fts = st.fts
    ∧ (removeFile p st).tools = st.tools
    ∧ (removeFile p st).fileIndex = st.fileIndex.filter (fun r => !(r.file_path == p))
    ∧ (∀ r ∈ (removeFile p st).fileIndex, r.file_path ≠ p) := by
  have hrw : removeFile p st = { st with fileIndex := st.fileIndex.filter (fun r => !(r.file_path == p)) } := by
    unfold removeFile
    rw [h]
  rw [hrw]
  refine ⟨rfl, rfl, rfl, rfl, ?_⟩
  intro r hr
  rcases List.mem_filter.mp hr with ⟨-, hb⟩
  simpa using hb

/-- Witness for C10: removing a never-indexed path from the witness
store. -/
theorem removeFile_missing_session_frame_witness :
    (wState.sessions.find? (fun r => r.file_path == "/nope") = none)
    ∧ ((removeFile "/nope" wState).sessions = wState.sessions
      ∧ (removeFile "/nope" wState).fts = wState.fts
      ∧ (removeFile "/nope" wState).tools = wState.tools
      ∧ (removeFile "/nope" wState).fileIndex = wState.fileIndex.filter (fun r => !(r.file_path == "/nope"))
      ∧ (∀ r ∈ (removeFile "/nope" wState).fileIndex, r.file_path ≠ "/nope")) :=
  ⟨by decide, removeFile_missing_session_frame wState "/nope" (by decide)⟩

/-- Every character emitted by the operator-stripping pass is a space
or a character of the input. -/
theorem mem_stripOpsAux (l : List Char) : ∀ (prev : Bool) (skip : Nat), ∀ c ∈ stripOpsAux prev skip l, c = ' ' ∨ c ∈ l := by
  induction l with
  | nil =>
    intro prev skip c hc
    simp [stripOpsAux] at hc
  | cons d rest ih =>
    intro prev skip c hc
    simp only [stripOpsAux] at hc
    split at hc
    · rcases ih _ _ c hc with h | h
      · exact Or.inl h
      · exact Or.inr (List.mem_cons_of_mem _ h)
    · split at hc
      · rcases List.mem_cons.mp hc with h | h
        · exact Or.inr (h ▸ List.mem_cons_self _ _)
        · rcases ih _ _ c h with h1 | h1
          · exact Or.inl h1
          · exact Or.inr (List.mem_cons_of_mem _ h1)
      · split at hc
        · rcases List.mem_cons.mp hc with h | h
          · exact Or.inl h
          · rcases ih _ _ c h with h1 | h1
            · exact Or.inl h1
            · exact Or.inr (List.mem_cons_of_mem _ h1)
        · rcases List.mem_cons.mp hc with h | h
          · exact Or.inr (h ▸ List.mem_cons_self _ _)
          · rcases ih _ _ c h with h1 | h1
            · exact Or.inl h1
            · exact Or.inr (List.mem_cons_of_mem _ h1)

/-- Every character emitted by the whitespace-collapsing pass is a
space or a character of the input. -/
theorem mem_collapseWsAux (l : List Char) : ∀ (inSpace : Bool), ∀ c ∈ collapseWsAux inSpace l, c = ' ' ∨ c ∈ l := by
  induction l with
  | nil =>
    intro inSpace c hc
    simp [collapseWsAux] at hc
  | cons d rest ih =>
    intro inSpace c hc
    simp only [collapseWsAux] at hc
    split at hc
    · split at hc
      · rcases ih _ c hc with h | h
        · exact Or.inl h
        · exact Or.inr (List.mem_cons_of_mem _ h)
      · rcases List.mem_cons.mp hc with h | h
        · exact Or.inl h
        · rcases ih _ c h with h1 | h1
          · exact Or.inl h1
          · exact Or.inr (List.mem_cons_of_mem _ h1)
    · rcases List.mem_cons.mp hc with h | h
      · exact Or.inr (h ▸ List.mem_cons_self _ _)
      · rcases ih _ c h with h1 | h1
        · exact Or.inl h1
        · exact Or.inr (List.mem_cons_of_mem _ h1)

/-- Trimming only removes characters. -/
theorem mem_strTrim (s : String) (c : Char) (hc : c ∈ (strTrim s).toList) : c ∈ s.toList := by
  unfold strTrim at hc
  have hc1 : c ∈ ((s.toList.dropWhile isSpaceChar).reverse.dropWhile isSpaceChar).reverse := hc
  rw [List.mem_reverse] at hc1
  have hc2 : c ∈ (s.toList.dropWhile isSpaceChar).reverse :=
    List.Sublist.mem hc1 (List.dropWhile_sublist _)
  rw [List.mem_reverse] at hc2
  exact List.Sublist.mem hc2 (List.dropWhile_sublist _)

/-- Every character of the sanitised query is a space or a non-special
character of the input query. -/
theorem mem_sanitizeFtsQuery (q : String) (c : Char) (hc : c ∈ (sanitizeFtsQuery q).toList) :
    c = ' ' ∨ (c ∈ q.toList ∧ specialChar c = false) := by
  unfold sanitizeFtsQuery at hc
  have hc1 := mem_strTrim _ _ hc
  have hc2 : c ∈ collapseWs (stripOps (q.toList.map (fun x => if specialChar x then ' ' else x))) := hc1
  rcases mem_collapseWsAux _ _ c hc2 with h | h
  · exact Or.inl h
  · rcases mem_stripOpsAux _ _ _ c h with h1 | h1
    · exact Or.inl h1
    · rcases List.mem_map.mp h1 with ⟨d, hd, hdc⟩
      by_cases hsp : specialChar d
      · rw [if_pos hsp] at hdc
        exact Or.inl hdc.symm
      · rw [if_neg hsp] at hdc
        refine Or.inr ⟨hdc ▸ hd, ?_⟩
        rw [← hdc]
        simpa using hsp

/-- The sanitised query never contains the match-all character. -/
theorem star_not_mem_sanitizeFtsQuery (q : String) : '*' ∉ (sanitizeFtsQuery q).toList := by
  intro h
  rcases mem_sanitizeFtsQuery q '*' h with h1 | h1
  · exact absurd h1 (by decide)
  · exact absurd h1.2 (by simp [specialChar])

/-- Claim C5: the FTS query escaper never returns the empty string, and
it returns the match-all sentinel exactly when the sanitisation chain
(special characters and standalone operator words to spaces, whitespace
collapsed, trimmed) leaves nothing. -/
theorem escapeFtsQuery_never_empty (q : String) :
    escapeFtsQuery q ≠ "" ∧ (escapeFtsQuery q = "*" ↔ sanitizeFtsQuery q = "") := by
  unfold escapeFtsQuery
  by_cases h : sanitizeFtsQuery q = ""
  · rw [if_pos h]
    exact ⟨by decide, by simp [h]⟩
  · rw [if_neg h]
    refine ⟨h, ?_⟩
    constructor
    · intro hstar
      exfalso
      apply star_not_mem_sanitizeFtsQuery q
      rw [hstar]
      decide
    · intro h0
      exact absurd h0 h

/-- Claim C8: the snippet search returns the empty list on an empty or
whitespace-only query, for every engine, option set and store state —
never the full listing. -/
theorem searchWithSnippets_empty_query (snipEng : SnippetEngine) (eng : FtsEngine)
    (query : String) (options : QueryOptions) (st : DBState) (hq : strTrim query = "") :
    searchConversationsWithSnippets snipEng eng query options st = []
    ∧ (getConversations options st ≠ [] →
        searchConversationsWithSnippets snipEng eng query options st ≠ getConversations options st) := by
  have he : searchConversationsWithSnippets snipEng eng query options st = [] := by
    unfold searchConversationsWithSnippets
    rw [if_pos hq]
  refine ⟨he, ?_⟩
  intro hne hcontra
  exact hne (by rw [← hcontra, he])

/-- Witness for C8: a whitespace query against the witness store,
whose listing is nonempty. -/
theorem searchWithSnippets_empty_query_witness :
    (strTrim "  " = "")
    ∧ (searchConversationsWithSnippets snipNone engNone "  " {} wState = []
      ∧ (getConversations {} wState ≠ [] →
          searchConversationsWithSnippets snipNone engNone "  " {} wState ≠ getConversations {} wState)) :=
  ⟨by decide, searchWithSnippets_empty_query snipNone engNone "  " {} wState (by decide)⟩

/-- Paged projection of a row list is no longer than the limit. -/
theorem paged_length_le (l : List SessionRow) (o n : Nat) :
    (((l.drop o).take n).map rowToConversation).length ≤ n := by
  rw [List.length_map, List.length_take]
  exact Nat.min_le_left _ _

/-- The default listing order: the rows sorted descending by
last_modified stay sorted through paging and conversion. -/
theorem paged_sorted_desc (rows : List SessionRow) (o n : Nat) :
    List.Sorted (fun a b : Conversation => b.lastModified ≤ a.lastModified)
      ((((List.insertionSort (keyDesc (sortKey "last_modified")) rows).drop o).take n).map rowToConversation) := by
  have hs : List.Sorted (keyDesc (sortKey "last_modified"))
      (List.insertionSort (keyDesc (sortKey "last_modified")) rows) := by
    haveI : IsTotal SessionRow (keyDesc (sortKey "last_modified")) :=
      ⟨fun a b => le_total (sortKey "last_modified" b) (sortKey "last_modified" a)⟩
    haveI : IsTrans SessionRow (keyDesc (sortKey "last_modified")) :=
      ⟨fun a b c h1 h2 => le_trans h2 h1⟩
    exact List.sorted_insertionSort _ _
  have hsub : (((List.insertionSort (keyDesc (sortKey "last_modified")) rows).drop o).take n).Sublist
      (List.insertionSort (keyDesc (sortKey "last_modified")) rows) :=
    (List.take_sublist _ _).trans (List.drop_sublist _ _)
  have hs2 := List.Pairwise.sublist hsub hs
  rw [List.Sorted, List.pairwise_map]
  exact hs2.imp (fun h => h)

/-- Claim C9 (implicit): the plain search on an empty or whitespace
query does not return the empty result but delegates to the ordinary
paged listing, whose result respects the limit option and, under the
default sort options, is ordered by last_modified descending. -/
theorem searchConversations_empty_query_delegates (eng : FtsEngine) (query : String)
    (options : QueryOptions) (st : DBState) (hq : strTrim query = "") :
    searchConversations eng query options st = getConversations options st
    ∧ (getConversations options st).length ≤ options.limit.getD 100
    ∧ (options.sortBy = none → options.sortOrder = none →
        List.Sorted (fun a b : Conversation => b.lastModified ≤ a.lastModified)
          (getConversations options st)) := by
  refine ⟨?_, ?_, ?_⟩
  · unfold searchConversations
    rw [if_pos hq]
  · unfold getConversations
    exact paged_length_le _ _ _
  · intro hsb hso
    unfold getConversations
    rw [hsb, hso]
    exact paged_sorted_desc _ _ _

/-- Witness for C9: the empty query against the witness store under
default options. -/
theorem searchConversations_empty_query_delegates_witness :
    (strTrim "" = "")
    ∧ (searchConversations engNone "" {} wState = getConversations {} wState
      ∧ (getConversations {} wState).length ≤ (({} : QueryOptions)).limit.getD 100
      ∧ ((({} : QueryOptions)).sortBy = none → (({} : QueryOptions)).sortOrder = none →
          List.Sorted (fun a b : Conversation => b.lastModified ≤ a.lastModified)
            (getConversations {} wState))) :=
  ⟨by decide, searchConversations_empty_query_delegates engNone "" {} wState (by decide)⟩

/-- The cwd scan never touches the token accumulators. -/
theorem stepCwd_io (item : JItem) (st : ParseState) :
    (stepCwd item st).input = st.input ∧ (stepCwd item st).output = st.output := by
  unfold stepCwd
  repeat' split
  all_goals exact ⟨rfl, rfl⟩

/-- The tool tally never touches the token accumulators. -/
theorem stepTools_io (msg : JMessage) (st : ParseState) :
    (stepTools msg st).input = st.input ∧ (stepTools msg st).output = st.output := by
  unfold stepTools
  generalize extractToolNames msg.content = ts
  induction ts generalizing st with
  | nil => exact ⟨rfl, rfl⟩
  | cons t rest ih =>
    rw [List.foldl_cons]
    exact ih _

/-- The message handler adds exactly the assistant usage contribution
to the token accumulators. -/
theorem stepMessage_io (item : JItem) (msg : JMessage) (st : ParseState) :
    (stepMessage item msg st).input
        = st.input + (if item.type == some "assistant" then
            (match msg.usage with
             | some u => u.input_tokens.getD 0
             | none => 0)
          else 0)
    ∧ (stepMessage item msg st).output
        = st.output + (if item.type == some "assistant" then
            (match msg.usage with
             | some u => u.output_tokens.getD 0
             | none => 0)
          else 0) := by
  simp only [stepMessage]
  have hti : ∀ s : ParseState, (stepTools msg s).input = s.input := fun s => (stepTools_io msg s).1
  have hto : ∀ s : ParseState, (stepTools msg s).output = s.output := fun s => (stepTools_io msg s).2
  repeat' split
  all_goals constructor
  all_goals first
    | rfl
    | (rw [hti]; try rfl; try simp)
    | (rw [hto]; try rfl; try simp)
    | simp

/-- One line changes the token accumulators by exactly its
assistant-line contribution. -/
theorem parseLine_io (st : ParseState) (line : Option JItem) :
    (parseLine st line).input = st.input + assistantInputTokens line
    ∧ (parseLine st line).output = st.output + assistantOutputTokens line := by
  cases line with
  | none => exact ⟨rfl, rfl⟩
  | some item =>
    simp only [parseLine, assistantInputTokens, assistantOutputTokens]
    cases hm : item.message with
    | none =>
      simp only [hm]
      rcases stepCwd_io item st with ⟨h1, h2⟩
      exact ⟨by rw [h1]; simp, by rw [h2]; simp⟩
    | some msg =>
      simp only [hm]
      by_cases ht : (item.type == some "assistant" || item.type == some "user") = true
      · rw [if_pos ht]
        rcases stepMessage_io item msg (stepCwd item st) with ⟨h1, h2⟩
        rcases stepCwd_io item st with ⟨g1, g2⟩
        rw [h1, h2, g1, g2]
        exact ⟨rfl, rfl⟩
      · rw [if_neg ht]
        have hta : (item.type == some "assistant") = false := by
          cases hx : (item.type == some "assistant") with
          | false => rfl
          | true => exact absurd (Bool.or_eq_true _ _ |>.mpr (Or.inl hx)) ht
        rw [hta]
        rcases stepCwd_io item st with ⟨g1, g2⟩
        exact ⟨by rw [g1]; simp, by rw [g2]; simp⟩

/-- Folding the line handler accumulates the per-line contributions. -/
theorem foldl_parseLine_io (lines : List (Option JItem)) : ∀ st : ParseState,
    ((lines.foldl parseLine st).input = st.input + (lines.map assistantInputTokens).sum)
    ∧ ((lines.foldl parseLine st).output = st.output + (lines.map assistantOutputTokens).sum) := by
  induction lines with
  | nil => intro st; simp
  | cons l rest ih =>
    intro st
    rw [List.foldl_cons, List.map_cons, List.sum_cons, List.map_cons, List.sum_cons]
    rcases ih (parseLine st l) with ⟨h1, h2⟩
    rcases parseLine_io st l with ⟨g1, g2⟩
    rw [h1, h2, g1, g2]
    omega

/-- Claim C6: the parser accumulates tokens only from assistant message
lines (missing usage numbers count as zero), and the resulting token
bundle satisfies total = input + output. -/
theorem parse_token_aggregation (lines : List (Option JItem)) :
    (parseJsonlStreaming lines).tokenUsage.total
        = (parseJsonlStreaming lines).tokenUsage.input + (parseJsonlStreaming lines).tokenUsage.output
    ∧ (parseJsonlStreaming lines).tokenUsage.input = (lines.map assistantInputTokens).sum
    ∧ (parseJsonlStreaming lines).tokenUsage.output = (lines.map assistantOutputTokens).sum := by
  refine ⟨rfl, ?_, ?_⟩
  · have h := (foldl_parseLine_io lines {}).1
    simpa using h
  · have h := (foldl_parseLine_io lines {}).2
    simpa using h

/-- Characterisation of needsIndexing: it is false exactly when a
tracking row for the path exists with the same (mtime, size) tuple. -/
theorem needsIndexing_eq_false_iff (st : DBState) (p : String) (m : Int) (s : Nat) :
    needsIndexing st p m s = false ↔
      ∃ r, st.fileIndex.find? (fun row => row.file_path == p) = some r ∧ r.mtime = m ∧ r.size = s := by
  unfold needsIndexing
  cases hf : st.fileIndex.find? (fun row => row.file_path == p) with
  | none => simp
  | some row =>
    simp only [hf]
    constructor
    · intro h
      simp only [Bool.or_eq_false_iff, decide_eq_false_iff_not, not_not] at h
      exact ⟨row, rfl, h.1, h.2⟩
    · rintro ⟨r, hr, h1, h2⟩
      injection hr with hr1
      rw [← hr1] at h1 h2
      simp [h1, h2]

/-- Filtering by a predicate implied by the search predicate does not
change the result of find?. -/
theorem find?_filter_of_imp {α : Type} (p q : α → Bool) (l : List α) (h : ∀ x, p x = true → q x = true) :
    (l.filter q).find? p = l.find? p := by
  induction l with
  | nil => rfl
  | cons x rest ih =>
    rw [List.filter_cons]
    by_cases hq : q x = true
    · rw [if_pos hq, List.find?_cons, List.find?_cons]
      cases hp : p x <;> simp [hp, ih]
    · rw [if_neg hq]
      have hp : p x = false := by
        cases hp : p x with
        | false => rfl
        | true => exact absurd (h x hp) hq
      rw [ih, List.find?_cons]
      simp [hp]

/-- After an upsert, the tracking row found for the upserted path is
exactly the freshly written tuple. -/
theorem upsert_find?_fileIndex (c : ConversationData) (txt : String) (now : Int) (st : DBState)
    (fp : String) (hfp : c.filePath = fp) :
    (upsertConversation c txt now st).fileIndex.find? (fun r => r.file_path == fp)
      = some { file_path := fp, mtime := timeOr c.lastModified now, size := c.fileSize, indexed_at := now } := by
  subst hfp
  unfold upsertConversation
  rw [List.find?_append]
  have h1 : (st.fileIndex.filter (fun r => !(r.file_path == c.filePath))).find?
      (fun r => r.file_path == c.filePath) = none := by
    rw [List.find?_eq_none]
    intro x hx
    rcases List.mem_filter.mp hx with ⟨-, hb⟩
    simpa using hb
  rw [h1]
  simp

/-- removeFile rewrites the tracking table to the same filter in both
of its branches. -/
theorem removeFile_fileIndex (p : String) (st : DBState) :
    (removeFile p st).fileIndex = st.fileIndex.filter (fun r => !(r.file_path == p)) := by
  unfold removeFile
  split <;> rfl

/-- The project-name updates never touch the tracking table. -/
theorem resolveStep_fileIndex (group : List SessionRow) (c : String) : ∀ st : DBState,
    (resolveStep group c st).fileIndex = st.fileIndex := by
  induction group with
  | nil => intro st; rfl
  | cons conv rest ih =>
    intro st
    unfold resolveStep
    rw [List.foldl_cons]
    have h := ih (if conv.project ≠ some c then applyUpd c conv.id st else st)
    unfold resolveStep at h
    rw [h]
    split <;> rfl

/-- Folder processing never touches the tracking table. -/
theorem procFolder_fileIndex (snapshot : List SessionRow) (st : DBState) (f : String) :
    (procFolder snapshot st f).fileIndex = st.fileIndex := by
  unfold procFolder
  split
  · rfl
  · split
    · rfl
    · exact resolveStep_fileIndex _ _ _

/-- The folder fold never touches the tracking table. -/
theorem foldl_procFolder_fileIndex (snapshot : List SessionRow) (keys : List String) : ∀ st : DBState,
    ((keys.foldl (procFolder snapshot) st).fileIndex = st.fileIndex) := by
  induction keys with
  | nil => intro st; rfl
  | cons k rest ih =>
    intro st
    rw [List.foldl_cons, ih, procFolder_fileIndex]

/-- Name resolution preserves the tracking table. -/
theorem resolve_fileIndex (st : DBState) : (resolveEncodedProjectNames st).1.fileIndex = st.fileIndex := by
  unfold resolveEncodedProjectNames
  exact foldl_procFolder_fileIndex _ _ _

/-- Removing other paths preserves the tracking row found for a path
not among them. -/
theorem foldl_removeFile_find? (p : String) (ps : List String) : ∀ st : DBState, (∀ q ∈ ps, q ≠ p) →
    ((ps.foldl (fun acc q => removeFile q acc) st).fileIndex.find? (fun r => r.file_path == p))
      = st.fileIndex.find? (fun r => r.file_path == p) := by
  induction ps with
  | nil => intro st _; rfl
  | cons q rest ih =>
    intro st hp
    rw [List.foldl_cons, ih _ (fun x hx => hp x (List.mem_cons_of_mem _ hx))]
    rw [removeFile_fileIndex]
    apply find?_filter_of_imp
    intro x hx
    have hxp : x.file_path = p := by simpa using hx
    have : ¬ (x.file_path = q) := by
      rw [hxp]
      exact fun h => hp q (List.mem_cons_self _ _) (h.symm)
    simpa using this

/-- After a full pass over one file whose mtime is nonzero, the
tracking row found for its path carries exactly the file's
(mtime, size). -/
theorem runFullIndex_tracked (projectsDir : String) (e : FileEntry) (now : Int) (st : DBState)
    (hm : e.stat.mtime ≠ 0) :
    ∃ r, ((runFullIndex projectsDir [e] now st).2).fileIndex.find? (fun row => row.file_path == e.path) = some r
      ∧ r.mtime = e.stat.mtime ∧ r.size = e.stat.size := by
  have hdel : ∀ q ∈ (dedupFS (st.fileIndex.map (fun r => r.file_path))).filter
      (fun p => !([e].map (fun f => f.path)).contains p), q ≠ e.path := by
    intro q hq
    rcases List.mem_filter.mp hq with ⟨-, hb⟩
    simp only [List.map_cons, List.map_nil] at hb
    simpa using hb
  simp only [runFullIndex, List.foldl_cons, List.foldl_nil]
  rw [resolve_fileIndex, foldl_removeFile_find? _ _ _ hdel]
  unfold indexLoopStep
  by_cases hni : needsIndexing st e.path e.stat.mtime e.stat.size = true
  · rw [if_pos hni]
    unfold indexFileUpdate
    dsimp only
    refine ⟨_, upsert_find?_fileIndex _ e.parse.searchableContent now st e.path (by rfl), ?_, ?_⟩
    · show timeOr (some e.stat.mtime) now = e.stat.mtime
      simp [timeOr, hm]
    · rfl
  · rw [if_neg hni]
    dsimp only
    have hfalse : needsIndexing st e.path e.stat.mtime e.stat.size = false :=
      Bool.eq_false_iff.mpr hni
    exact (needsIndexing_eq_false_iff st e.path e.stat.mtime e.stat.size).mp hfalse

/-- Claim C4: needsIndexing is false exactly when a tracking row with
the same (mtime, size) exists, and a second full pass over the same
unmodified file reports one skipped and zero indexed files. -/
theorem needsIndexing_iff_and_second_pass_skips (projectsDir : String) (e : FileEntry)
    (now now2 : Int) (st : DBState) (hm : e.stat.mtime ≠ 0) :
    (∀ p m s, needsIndexing st p m s = false ↔
      ∃ r, st.fileIndex.find? (fun row => row.file_path == p) = some r ∧ r.mtime = m ∧ r.size = s)
    ∧ (runFullIndex projectsDir [e] now2 (runFullIndex projectsDir [e] now st).2).1.filesSkipped = 1
    ∧ (runFullIndex projectsDir [e] now2 (runFullIndex projectsDir [e] now st).2).1.filesIndexed = 0 := by
  refine ⟨fun p m s => needsIndexing_eq_false_iff st p m s, ?_⟩
  rcases runFullIndex_tracked projectsDir e now st hm with ⟨r, hr, h1, h2⟩
  have hfalse : needsIndexing ((runFullIndex projectsDir [e] now st).2) e.path e.stat.mtime e.stat.size = false :=
    (needsIndexing_eq_false_iff _ _ _ _).mpr ⟨r, hr, h1, h2⟩
  have hskip : ∀ st1 : DBState, needsIndexing st1 e.path e.stat.mtime e.stat.size = false →
      ((runFullIndex projectsDir [e] now2 st1).1.filesSkipped = 1
       ∧ (runFullIndex projectsDir [e] now2 st1).1.filesIndexed = 0) := by
    intro st1 hf
    have hne : ¬ (needsIndexing st1 e.path e.stat.mtime e.stat.size = true) := by simp [hf]
    simp only [runFullIndex, List.foldl_cons, List.foldl_nil, indexLoopStep]
    rw [if_neg hne]
    exact ⟨rfl, rfl⟩
  exact hskip _ hfalse

/-- Witness for C4: a fresh file indexed against the empty store, then
passed over again unmodified. -/
theorem needsIndexing_iff_and_second_pass_skips_witness :
    (wEntry.stat.mtime ≠ 0)
    ∧ ((∀ p m s, needsIndexing {} p m s = false ↔
        ∃ r, (({} : DBState)).fileIndex.find? (fun row => row.file_path == p) = some r ∧ r.mtime = m ∧ r.size = s)
      ∧ (runFullIndex "/h/projects" [wEntry] 200 (runFullIndex "/h/projects" [wEntry] 100 {}).2).1.filesSkipped = 1
      ∧ (runFullIndex "/h/projects" [wEntry] 200 (runFullIndex "/h/projects" [wEntry] 100 {}).2).1.filesIndexed = 0) :=
  ⟨by decide, needsIndexing_iff_and_second_pass_skips "/h/projects" wEntry 100 200 {} (by decide)⟩

/-- Counterexample for C7 as stated: with one parent and two of its
subagents where the input lists the older subagent a before the newer
subagent b, the grouped output emits b before a — the per-parent block
does not preserve the input's relative order. -/
theorem groupSubagents_reorders_counterexample :
    [wParent, wSubA, wSubB].map (fun c => c.id) = ["p", "a", "b"]
    ∧ (groupSubagentsUnderParents (fun _ => none) true [wParent, wSubA, wSubB]).map (fun c => c.id)
        = ["p", "b", "a"] := by
  constructor
  · decide
  · decide

/-- The filter of one emitted parent block: the whole sorted subagent
list when the block belongs to the filtered parent id, nothing
otherwise. -/
theorem block_filter_eq (subs : List MConv) (pid : String) (q : MConv) (hq : q.isSubagent = false)
    (hsubs : ∀ x ∈ subs, x.isSubagent = true) :
    (q :: List.insertionSort lmGE (subs.filter (fun s => s.parentId == some q.id))).filter
        (fun c => c.isSubagent && c.parentId == some pid)
      = if q.id = pid then List.insertionSort lmGE (subs.filter (fun s => s.parentId == some pid)) else [] := by
  rw [List.filter_cons]
  rw [if_neg (by simp [hq])]
  by_cases hid : q.id = pid
  · rw [if_pos hid, hid]
    apply List.filter_eq_self.mpr
    intro x hx
    have hx1 : x ∈ subs.filter (fun s => s.parentId == some pid) :=
      (List.perm_insertionSort _ _).mem_iff.mp hx
    rcases List.mem_filter.mp hx1 with ⟨hxs, hxp⟩
    simp [hsubs x hxs, hxp]
  · rw [if_neg hid]
    apply List.filter_eq_nil_iff.mpr
    intro x hx
    have hx1 := (List.perm_insertionSort _ _).mem_iff.mp hx
    rcases List.mem_filter.mp hx1 with ⟨hxs, hxp⟩
    have hxp2 : x.parentId = some q.id := by simpa using hxp
    simp [hxp2, hid]

/-- The filter of the whole parent-block emission: exactly the sorted
subagent list of the filtered parent id when that id occurs among the
(distinct) parent ids. -/
theorem flatMap_blocks_filter (subs : List MConv) (pid : String)
    (hsubs : ∀ x ∈ subs, x.isSubagent = true) :
    ∀ ps : List MConv, (∀ q ∈ ps, q.isSubagent = false) → ((ps.map (fun q => q.id)).Nodup) →
    (ps.flatMap (fun parent =>
        parent :: List.insertionSort lmGE (subs.filter (fun s => s.parentId == some parent.id)))).filter
        (fun c => c.isSubagent && c.parentId == some pid)
      = if pid ∈ ps.map (fun q => q.id) then
          List.insertionSort lmGE (subs.filter (fun s => s.parentId == some pid))
        else [] := by
  intro ps
  induction ps with
  | nil => intro _ _; simp
  | cons q rest ih =>
    intro hp hnd
    rw [List.flatMap_cons, List.filter_append]
    rw [block_filter_eq subs pid q (hp q (List.mem_cons_self _ _)) hsubs]
    rw [List.map_cons] at hnd ⊢
    rcases List.nodup_cons.mp hnd with ⟨hqnot, hndrest⟩
    rw [ih (fun x hx => hp x (List.mem_cons_of_mem _ hx)) hndrest]
    by_cases hid : q.id = pid
    · rw [if_pos hid]
      rw [if_neg (by rw [← hid]; exact hqnot)]
      rw [if_pos (List.mem_cons.mpr (Or.inl hid.symm))]
      rw [List.append_nil]
    · rw [if_neg hid]
      rw [List.nil_append]
      by_cases hm : pid ∈ rest.map (fun x => x.id)
      · rw [if_pos hm, if_pos (List.mem_cons_of_mem _ hm)]
      · rw [if_neg hm, if_neg (by
          rw [List.mem_cons]
          rintro (h | h)
          · exact hid h.symm
          · exact hm h)]

/-- Amended C7: the subagents emitted under a parent are exactly the
input's subagents of that parent, sorted stably by last_modified
descending (ties keep input order); the function itself is
deterministic.  Side conditions: the parent id occurs among the
(pairwise distinct) emitted parent ids, none of the emitted parents is
itself a subagent record, and the id is truthy. -/
theorem groupSubagents_emits_sorted_blocks (getConv : String → Option MConv) (useDb : Bool)
    (convs : List MConv) (pid : String)
    (hne : gSubagents convs ≠ [])
    (hpid : pid ≠ "")
    (hmem : pid ∈ (gAllParents getConv useDb convs).map (fun p => p.id))
    (hnd : ((gAllParents getConv useDb convs).map (fun p => p.id)).Nodup)
    (hstub : ∀ c ∈ gAllParents getConv useDb convs, c.isSubagent = false) :
    (groupSubagentsUnderParents getConv useDb convs).filter
        (fun c => c.isSubagent && c.parentId == some pid)
      = List.insertionSort lmGE ((gSubagents convs).filter (fun s => s.parentId == some pid)) := by
  have h0 : ¬ ((gSubagents convs).isEmpty = true) := fun h => hne (List.isEmpty_iff.mp h)
  have hperm := List.perm_insertionSort lmGE (gAllParents getConv useDb convs)
  have hp' : ∀ q ∈ List.insertionSort lmGE (gAllParents getConv useDb convs), q.isSubagent = false :=
    fun q hq => hstub q (hperm.mem_iff.mp hq)
  have hnd' : ((List.insertionSort lmGE (gAllParents getConv useDb convs)).map (fun p => p.id)).Nodup :=
    ((hperm.map (fun p => p.id)).nodup_iff).mpr hnd
  have hmem' : pid ∈ (List.insertionSort lmGE (gAllParents getConv useDb convs)).map (fun p => p.id) :=
    ((hperm.map (fun p => p.id)).mem_iff).mpr hmem
  have hsubs : ∀ x ∈ gSubagents convs, x.isSubagent = true :=
    fun x hx => (List.mem_filter.mp hx).2
  simp only [groupSubagentsUnderParents]
  rw [if_neg h0]
  rw [List.filter_append]
  rw [flatMap_blocks_filter (gSubagents convs) pid hsubs _ hp' hnd']
  rw [if_pos hmem']
  have horph : ((gSubagents convs).filter (fun s =>
      !optTruthy s.parentId
        || !((List.insertionSort lmGE (gAllParents getConv useDb convs)).map (fun p => p.id)).contains
            (s.parentId.getD ""))).filter (fun c => c.isSubagent && c.parentId == some pid) = [] := by
    apply List.filter_eq_nil_iff.mpr
    intro x hx
    rcases List.mem_filter.mp hx with ⟨-, hxcond⟩
    intro hpred
    rcases Bool.and_eq_true _ _ |>.mp hpred with ⟨-, hxp⟩
    have hxp2 : x.parentId = some pid := by simpa using hxp
    rw [hxp2] at hxcond
    have ht : optTruthy (some pid) = true := by simp [optTruthy, hpid]
    rw [ht] at hxcond
    simp only [Bool.not_true, Bool.false_or, Bool.not_eq_true', Option.getD_some] at hxcond
    rw [List.contains_eq_any_beq, List.any_eq_false] at hxcond
    exact (hxcond pid hmem') (by simp)
  rw [horph, List.append_nil]

/-- Witness for the amended C7 at the concrete three-record input. -/
theorem groupSubagents_emits_sorted_blocks_witness :
    (gSubagents [wParent, wSubA, wSubB] ≠ []
      ∧ ("p" : String) ≠ ""
      ∧ "p" ∈ (gAllParents (fun _ => none) true [wParent, wSubA, wSubB]).map (fun p => p.id)
      ∧ ((gAllParents (fun _ => none) true [wParent, wSubA, wSubB]).map (fun p => p.id)).Nodup
      ∧ (∀ c ∈ gAllParents (fun _ => none) true [wParent, wSubA, wSubB], c.isSubagent = false))
    ∧ (groupSubagentsUnderParents (fun _ => none) true [wParent, wSubA, wSubB]).filter
          (fun c => c.isSubagent && c.parentId == some "p")
        = List.insertionSort lmGE ((gSubagents [wParent, wSubA, wSubB]).filter (fun s => s.parentId == some "p")) :=
  ⟨⟨by decide, by decide, by decide, by decide, by decide⟩,
   groupSubagents_emits_sorted_blocks (fun _ => none) true [wParent, wSubA, wSubB] "p"
     (by decide) (by decide) (by decide) (by decide) (by decide)⟩

/-- Counterexample for C2 as stated: a group whose only (non-null) cwd
is the filesystem root has an empty canonical basename; the source
skips such a group, leaving the session's project untouched instead of
setting it to basename of the shortest cwd. -/
theorem resolve_empty_basename_counterexample :
    (wRootCwdState.sessions.map (fun s => s.cwd) = [some "/"])
    ∧ rootCwdOf wRootCwdState.sessions "-x" = some "/"
    ∧ basename "/" = ""
    ∧ (resolveEncodedProjectNames wRootCwdState).1.sessions.map (fun s => s.project) = [some "p"]
    ∧ (some "p" : Option String) ≠ some (basename "/") := by
  refine ⟨by decide, by decide, by decide, by decide, by decide⟩

/-- Membership in the first-seen deduplication. -/
theorem mem_dedupFS_go (l : List String) : ∀ (acc : List String) (a : String),
    a ∈ l.foldl (fun acc c => if c ∈ acc then acc else acc ++ [c]) acc ↔ (a ∈ acc ∨ a ∈ l) := by
  induction l with
  | nil => intro acc a; simp
  | cons c rest ih =>
    intro acc a
    rw [List.foldl_cons]
    by_cases hc : c ∈ acc
    · rw [if_pos hc, ih]
      constructor
      · rintro (h | h)
        · exact Or.inl h
        · exact Or.inr (List.mem_cons_of_mem _ h)
      · rintro (h | h)
        · exact Or.inl h
        · rcases List.mem_cons.mp h with h1 | h1
          · exact Or.inl (h1 ▸ hc)
          · exact Or.inr h1
    · rw [if_neg hc, ih]
      simp only [List.mem_append, List.mem_cons, List.mem_singleton]
      tauto

/-- Membership in dedupFS. -/
theorem mem_dedupFS (l : List String) (a : String) : a ∈ dedupFS l ↔ a ∈ l := by
  unfold dedupFS
  rw [mem_dedupFS_go]
  simp

/-- dedupFS produces a duplicate-free list. -/
theorem dedupFS_nodup_go (l : List String) : ∀ acc : List String, acc.Nodup →
    (l.foldl (fun acc c => if c ∈ acc then acc else acc ++ [c]) acc).Nodup := by
  induction l with
  | nil => intro acc h; exact h
  | cons c rest ih =>
    intro acc hacc
    rw [List.foldl_cons]
    by_cases hc : c ∈ acc
    · rw [if_pos hc]
      exact ih _ hacc
    · rw [if_neg hc]
      apply ih
      rw [List.nodup_append]
      exact ⟨hacc, List.nodup_singleton _, by simpa [List.disjoint_singleton] using hc⟩

/-- dedupFS is duplicate-free. -/
theorem dedupFS_nodup (l : List String) : (dedupFS l).Nodup :=
  dedupFS_nodup_go l [] List.nodup_nil

/-- The project update preserves row ids. -/
theorem updSession_id (c i : String) (s : SessionRow) : (updSession c i s).id = s.id := by
  unfold updSession
  split <;> rfl

/-- The FTS update preserves conversation ids. -/
theorem updFts_cid (c i : String) (fr : FtsRow) : (updFts c i fr).conversation_id = fr.conversation_id := by
  unfold updFts
  split <;> rfl

/-- One UPDATE pair preserves the id column of the sessions table. -/
theorem ids_applyUpd (c i : String) (st : DBState) :
    (applyUpd c i st).sessions.map (fun x => x.id) = st.sessions.map (fun x => x.id) := by
  unfold applyUpd
  rw [List.map_map]
  simp [Function.comp_def, updSession_id]

/-- The per-folder update loop preserves the id column. -/
theorem ids_resolveStep (group : List SessionRow) (c : String) : ∀ st : DBState,
    (resolveStep group c st).sessions.map (fun x => x.id) = st.sessions.map (fun x => x.id) := by
  induction group with
  | nil => intro st; rfl
  | cons conv rest ih =>
    intro st
    unfold resolveStep
    rw [List.foldl_cons]
    have h := ih (if conv.project ≠ some c then applyUpd c conv.id st else st)
    unfold resolveStep at h
    rw [h]
    split
    · exact ids_applyUpd _ _ _
    · rfl

/-- Folder processing preserves the id column. -/
theorem ids_procFolder (snapshot : List SessionRow) (st : DBState) (f : String) :
    (procFolder snapshot st f).sessions.map (fun x => x.id) = st.sessions.map (fun x => x.id) := by
  unfold procFolder
  split
  · rfl
  · split
    · rfl
    · exact ids_resolveStep _ _ _

/-- The folder fold preserves the id column. -/
theorem ids_keysFold (snapshot : List SessionRow) (keys : List String) : ∀ st : DBState,
    (keys.foldl (procFolder snapshot) st).sessions.map (fun x => x.id) = st.sessions.map (fun x => x.id) := by
  induction keys with
  | nil => intro st; rfl
  | cons k rest ih =>
    intro st
    rw [List.foldl_cons, ih, ids_procFolder]

/-- An UPDATE pair keyed by another id preserves any session-project
invariant for this id. -/
theorem sessInv_applyUpd_miss (c i sid : String) (P : Option String → Prop) (st : DBState)
    (hne : i ≠ sid) (h : SessInv sid P st) : SessInv sid P (applyUpd c i st) := by
  intro t ht htid
  rcases List.mem_map.mp ht with ⟨u, hu, rfl⟩
  rw [updSession_id] at htid
  have heq : updSession c i u = u := by
    unfold updSession
    rw [if_neg (show ¬ (u.id = i) by intro hh; rw [hh] at htid; exact hne htid)]
  rw [heq]
  exact h u hu htid

/-- An UPDATE pair keyed by another id preserves any FTS-project
invariant for this id. -/
theorem ftsInv_applyUpd_miss (c i sid : String) (Q : String → Prop) (st : DBState)
    (hne : i ≠ sid) (h : FtsInv sid Q st) : FtsInv sid Q (applyUpd c i st) := by
  intro fr hf hfid
  rcases List.mem_map.mp hf with ⟨u, hu, rfl⟩
  rw [updFts_cid] at hfid
  have heq : updFts c i u = u := by
    unfold updFts
    rw [if_neg (show ¬ (u.conversation_id = i) by intro hh; rw [hh] at hfid; exact hne hfid)]
  rw [heq]
  exact h u hu hfid

/-- An UPDATE pair keyed by this id sets every matching session
project to the canonical name. -/
theorem sessInv_applyUpd_hit (c sid : String) (st : DBState) :
    SessInv sid (fun pr => pr = some c) (applyUpd c sid st) := by
  intro t ht htid
  rcases List.mem_map.mp ht with ⟨u, hu, rfl⟩
  rw [updSession_id] at htid
  show (updSession c sid u).project = some c
  unfold updSession
  rw [if_pos htid]

/-- An UPDATE pair keyed by this id sets every matching FTS project to
the canonical name. -/
theorem ftsInv_applyUpd_hit (c sid : String) (st : DBState) :
    FtsInv sid (fun pr => pr = c) (applyUpd c sid st) := by
  intro fr hf hfid
  rcases List.mem_map.mp hf with ⟨u, hu, rfl⟩
  rw [updFts_cid] at hfid
  show (updFts c sid u).project = c
  unfold updFts
  rw [if_pos hfid]

/-- The per-folder loop over a group without this id preserves both
invariants. -/
theorem inv_resolveStep_miss (sid : String) (P : Option String → Prop) (Q : String → Prop) (c : String) :
    ∀ group : List SessionRow, (∀ conv ∈ group, conv.id ≠ sid) →
    ∀ st : DBState, SessInv sid P st → FtsInv sid Q st →
      SessInv sid P (resolveStep group c st) ∧ FtsInv sid Q (resolveStep group c st) := by
  intro group
  induction group with
  | nil => intro _ st hP hQ; exact ⟨hP, hQ⟩
  | cons conv rest ih =>
    intro hg st hP hQ
    unfold resolveStep
    rw [List.foldl_cons]
    have hx : SessInv sid P (if conv.project ≠ some c then applyUpd c conv.id st else st)
        ∧ FtsInv sid Q (if conv.project ≠ some c then applyUpd c conv.id st else st) := by
      split
      · exact ⟨sessInv_applyUpd_miss _ _ _ _ _ (hg conv (List.mem_cons_self _ _)) hP,
               ftsInv_applyUpd_miss _ _ _ _ _ (hg conv (List.mem_cons_self _ _)) hQ⟩
      · exact ⟨hP, hQ⟩
    exact ih (fun x hx2 => hg x (List.mem_cons_of_mem _ hx2)) _ hx.1 hx.2

/-- The per-folder loop over a group containing the session (with
pairwise distinct ids) leaves every row of that id, and every FTS row
of that id, carrying the canonical name. -/
theorem inv_resolveStep_hit (s : SessionRow) (c : String) :
    ∀ group : List SessionRow, s ∈ group → ((group.map (fun x => x.id)).Nodup) →
    ∀ st : DBState, SessInv s.id (fun pr => pr = s.project) st →
      FtsInv s.id (fun pr => pr = s.project.getD "") st →
      SessInv s.id (fun pr => pr = some c) (resolveStep group c st)
      ∧ FtsInv s.id (fun pr => pr = c) (resolveStep group c st) := by
  intro group
  induction group with
  | nil => intro h; cases h
  | cons conv rest ih =>
    intro hsg hgnd st hP hQ
    rw [List.map_cons] at hgnd
    rcases List.nodup_cons.mp hgnd with ⟨hnotin, hndrest⟩
    unfold resolveStep
    rw [List.foldl_cons]
    by_cases hcs : conv.id = s.id
    · have hconv : conv = s := by
        rcases List.mem_cons.mp hsg with h | h
        · exact h.symm
        · exact absurd (List.mem_map.mpr ⟨s, h, hcs.symm⟩ : conv.id ∈ rest.map (fun x => x.id)) hnotin
      subst hconv
      have hX : SessInv conv.id (fun pr => pr = some c)
            (if conv.project ≠ some c then applyUpd c conv.id st else st)
          ∧ FtsInv conv.id (fun pr => pr = c)
            (if conv.project ≠ some c then applyUpd c conv.id st else st) := by
        by_cases hproj : conv.project ≠ some c
        · rw [if_pos hproj]
          exact ⟨sessInv_applyUpd_hit c conv.id st, ftsInv_applyUpd_hit c conv.id st⟩
        · rw [if_neg hproj]
          push_neg at hproj
          constructor
          · intro t ht htid
            rw [hP t ht htid, hproj]
          · intro fr hf hfid
            rw [hQ fr hf hfid, hproj]
            rfl
      have hrest : ∀ x ∈ rest, x.id ≠ conv.id := by
        intro x hx hxe
        exact hnotin (List.mem_map.mpr ⟨x, hx, hxe⟩)
      exact inv_resolveStep_miss conv.id _ _ c rest hrest _ hX.1 hX.2
    · have hs2 : s ∈ rest := by
        rcases List.mem_cons.mp hsg with h | h
        · exact absurd (congrArg SessionRow.id h.symm) hcs
        · exact h
      have hX : SessInv s.id (fun pr => pr = s.project)
            (if conv.project ≠ some c then applyUpd c conv.id st else st)
          ∧ FtsInv s.id (fun pr => pr = s.project.getD "")
            (if conv.project ≠ some c then applyUpd c conv.id st else st) := by
        by_cases hproj : conv.project ≠ some c
        · rw [if_pos hproj]
          exact ⟨sessInv_applyUpd_miss _ _ _ _ _ hcs hP, ftsInv_applyUpd_miss _ _ _ _ _ hcs hQ⟩
        · rw [if_neg hproj]
          exact ⟨hP, hQ⟩
      exact ih hs2 hndrest _ hX.1 hX.2

/-- Processing a folder whose group does not contain this id preserves
both invariants. -/
theorem inv_procFolder_miss (snapshot : List SessionRow) (sid : String)
    (P : Option String → Prop) (Q : String → Prop) (f : String)
    (hg : ∀ conv ∈ folderGroup snapshot f, conv.id ≠ sid)
    (st : DBState) (hP : SessInv sid P st) (hQ : FtsInv sid Q st) :
    SessInv sid P (procFolder snapshot st f) ∧ FtsInv sid Q (procFolder snapshot st f) := by
  unfold procFolder
  split
  · exact ⟨hP, hQ⟩
  · split
    · exact ⟨hP, hQ⟩
    · exact inv_resolveStep_miss sid P Q _ _ hg st hP hQ

/-- Folding folders none of which contain this id preserves both
invariants. -/
theorem inv_keysFold_miss (snapshot : List SessionRow) (sid : String)
    (P : Option String → Prop) (Q : String → Prop) :
    ∀ keys : List String, (∀ k ∈ keys, ∀ conv ∈ folderGroup snapshot k, conv.id ≠ sid) →
    ∀ st : DBState, SessInv sid P st → FtsInv sid Q st →
      SessInv sid P (keys.foldl (procFolder snapshot) st)
      ∧ FtsInv sid Q (keys.foldl (procFolder snapshot) st) := by
  intro keys
  induction keys with
  | nil => intro _ st hP hQ; exact ⟨hP, hQ⟩
  | cons k rest ih =>
    intro hg st hP hQ
    rw [List.foldl_cons]
    have hx := inv_procFolder_miss snapshot sid P Q k (hg k (List.mem_cons_self _ _)) st hP hQ
    exact ih (fun x hx2 => hg x (List.mem_cons_of_mem _ hx2)) _ hx.1 hx.2

/-- Folding a duplicate-free folder list containing the session's
folder (and in which no other folder's group carries its id) leaves
every session row of that id, and every FTS row of that id, with the
canonical name of that folder. -/
theorem inv_keysFold_hit (snapshot : List SessionRow) (s : SessionRow) (f root : String)
    (hroot : rootCwdOf snapshot f = some root) (hb : basename root ≠ "")
    (hsg : s ∈ folderGroup snapshot f)
    (hgnd : ((folderGroup snapshot f).map (fun x => x.id)).Nodup) :
    ∀ keys : List String, f ∈ keys → keys.Nodup →
    (∀ k ∈ keys, k ≠ f → ∀ conv ∈ folderGroup snapshot k, conv.id ≠ s.id) →
    ∀ st : DBState, SessInv s.id (fun pr => pr = s.project) st →
      FtsInv s.id (fun pr => pr = s.project.getD "") st →
      SessInv s.id (fun pr => pr = some (basename root)) (keys.foldl (procFolder snapshot) st)
      ∧ FtsInv s.id (fun pr => pr = basename root) (keys.foldl (procFolder snapshot) st) := by
  intro keys
  induction keys with
  | nil => intro h; cases h
  | cons k rest ih =>
    intro hf hnd hmiss st hP hQ
    rcases List.nodup_cons.mp hnd with ⟨hknot, hndrest⟩
    rw [List.foldl_cons]
    by_cases hkf : k = f
    · subst hkf
      have hstep : procFolder snapshot st k = resolveStep (folderGroup snapshot k) (basename root) st := by
        simp only [procFolder, hroot]
        rw [if_neg hb]
      rw [hstep]
      have h1 := inv_resolveStep_hit s (basename root) (folderGroup snapshot k) hsg hgnd st hP hQ
      have hrest : ∀ k2 ∈ rest, ∀ conv ∈ folderGroup snapshot k2, conv.id ≠ s.id := by
        intro k2 hk2 conv hconv
        have hk2f : k2 ≠ k := fun he => hknot (he ▸ hk2)
        exact hmiss k2 (List.mem_cons_of_mem _ hk2) hk2f conv hconv
      exact inv_keysFold_miss snapshot s.id _ _ rest hrest _ h1.1 h1.2
    · have hfr : f ∈ rest := by
        rcases List.mem_cons.mp hf with h | h
        · exact absurd h.symm hkf
        · exact h
      have hstep := inv_procFolder_miss snapshot s.id _ _ k
        (hmiss k (List.mem_cons_self _ _) hkf) st hP hQ
      exact ih hfr hndrest (fun k2 hk2 hne => hmiss k2 (List.mem_cons_of_mem _ hk2) hne) _ hstep.1 hstep.2

/-- Amended C2: after resolveEncodedProjectNames, every session of a
group that has at least one truthy cwd and whose shortest cwd has a
non-empty basename carries project = basename(shortest cwd), with the
FTS project column in step; groups whose canonical basename is empty
are skipped.  Side conditions: session ids are pairwise distinct (the
id column is the primary key) and the FTS project column was
consistent with the sessions beforehand (the invariant upserts
establish). -/
theorem resolve_canonicalizes_group (st : DBState) (s : SessionRow) (f root : String)
    (hnd : (st.sessions.map (fun x => x.id)).Nodup)
    (hcons : ∀ fr ∈ st.fts, ∀ t ∈ st.sessions, t.id = fr.conversation_id → fr.project = t.project.getD "")
    (hs : s ∈ st.sessions)
    (hf : encodedFolderOf s.file_path = some f)
    (hr : rootCwdOf st.sessions f = some root)
    (hb : basename root ≠ "") :
    (∀ t ∈ (resolveEncodedProjectNames st).1.sessions, t.id = s.id → t.project = some (basename root))
    ∧ (∀ fr ∈ (resolveEncodedProjectNames st).1.fts, fr.conversation_id = s.id → fr.project = basename root)
    ∧ (∃ t ∈ (resolveEncodedProjectNames st).1.sessions, t.id = s.id) := by
  have huniq : ∀ a ∈ st.sessions, ∀ b ∈ st.sessions, a.id = b.id → a = b := by
    intro a ha b hb2 hab
    exact List.inj_on_of_nodup_map hnd ha hb2 hab
  have hsg : s ∈ folderGroup st.sessions f := List.mem_filter.mpr ⟨hs, by simp [hf]⟩
  have hgnd : ((folderGroup st.sessions f).map (fun x => x.id)).Nodup :=
    List.Nodup.sublist (List.Sublist.map _ (List.filter_sublist _)) hnd
  have hfk : f ∈ folderKeys st.sessions := by
    unfold folderKeys
    exact (mem_dedupFS _ _).mpr (List.mem_filterMap.mpr ⟨s, hs, hf⟩)
  have hknd : (folderKeys st.sessions).Nodup := dedupFS_nodup _
  have hmiss : ∀ k ∈ folderKeys st.sessions, k ≠ f → ∀ conv ∈ folderGroup st.sessions k, conv.id ≠ s.id := by
    intro k _ hkf conv hconv hce
    rcases List.mem_filter.mp hconv with ⟨hconv1, hconv2⟩
    have heq : conv = s := huniq conv hconv1 s hs hce
    rw [heq, hf] at hconv2
    have hfk2 : f = k := by simpa using hconv2
    exact hkf hfk2.symm
  have hP0 : SessInv s.id (fun pr => pr = s.project) st := by
    intro t ht hte
    rw [huniq t ht s hs hte]
  have hQ0 : FtsInv s.id (fun pr => pr = s.project.getD "") st := by
    intro fr hfr hfe
    exact hcons fr hfr s hs hfe.symm
  have hmain := inv_keysFold_hit st.sessions s f root hr hb hsg hgnd
    (folderKeys st.sessions) hfk hknd hmiss st hP0 hQ0
  refine ⟨?_, ?_, ?_⟩
  · intro t ht hte
    exact hmain.1 t ht hte
  · intro fr hfr hfe
    exact hmain.2 fr hfr hfe
  · have hmm2 : s.id ∈ (resolveEncodedProjectNames st).1.sessions.map (fun x => x.id) := by
      have hids : (resolveEncodedProjectNames st).1.sessions.map (fun x => x.id)
          = st.sessions.map (fun x => x.id) := ids_keysFold st.sessions (folderKeys st.sessions) st
      rw [hids]
      exact List.mem_map.mpr ⟨s, hs, rfl⟩
    rcases List.mem_map.mp hmm2 with ⟨t, ht, hte⟩
    exact ⟨t, ht, hte⟩

/-- Witness for the amended C2: two sessions of one encoded folder,
one indexed from the project root and one from a subdirectory, both
end with project my-project and their FTS rows in step. -/
theorem resolve_canonicalizes_group_witness :
    ((wResState.sessions.map (fun x => x.id)).Nodup
      ∧ (∀ fr ∈ wResState.fts, ∀ t ∈ wResState.sessions, t.id = fr.conversation_id → fr.project = t.project.getD "")
      ∧ wResB ∈ wResState.sessions
      ∧ encodedFolderOf wResB.file_path = some "-u-proj"
      ∧ rootCwdOf wResState.sessions "-u-proj" = some "/u/proj/my-project"
      ∧ basename "/u/proj/my-project" ≠ "")
    ∧ ((∀ t ∈ (resolveEncodedProjectNames wResState).1.sessions, t.id = wResB.id →
          t.project = some (basename "/u/proj/my-project"))
      ∧ (∀ fr ∈ (resolveEncodedProjectNames wResState).1.fts, fr.conversation_id = wResB.id →
          fr.project = basename "/u/proj/my-project")
      ∧ (∃ t ∈ (resolveEncodedProjectNames wResState).1.sessions, t.id = wResB.id)) :=
  ⟨⟨by decide, by decide, by decide, by decide, by decide, by decide⟩,
   resolve_canonicalizes_group wResState wResB "-u-proj" "/u/proj/my-project"
     (by decide) (by decide) (by decide) (by decide) (by decide) (by decide)⟩
